import Mathlib

/-!
# Verification development for `owerbat/daal`

Shallow embedding of

* `cpp/daal/include/algorithms/k_nearest_neighbors/bf_knn_classification_model.h`
  (the brute-force kNN `Parameter` structure: constructor, copy constructor, copy assignment);
* `cpp/oneapi/dal/test/engine/linalg/matrix.hpp` (`layout`, `shape`, `matrix_base`, `matrix`);
* the gradient-boosted-tree components (`HistogramBuilder`, `SplitEvaluator`,
  `PartialResultStore`) whose kernels are not part of the available sources and are therefore
  modelled from the specification text.

Definitions come first, theorems afterwards.
-/

set_option autoImplicit false

/-! ## Part I. `bf_knn_classification::Parameter` -/

namespace daal.algorithms.bf_knn_classification

/-- The `enum DataUseInModel` of the header. -/
inductive DataUseInModel where
  | doNotUse
  | doUse
  deriving DecidableEq, Repr

/-- Numeric value of a `DataUseInModel` enumerator (`doNotUse = 0`, `doUse = 1`). -/
def DataUseInModel.val : DataUseInModel → Nat
  | .doNotUse => 0
  | .doUse => 1

/-- The `enum ResultToComputeId` of the header. -/
inductive ResultToComputeId where
  | computeClassLabels
  | computeIndicesOfNeightbors
  | computeDistances
  deriving DecidableEq, Repr

/-- Numeric value of a `ResultToComputeId` enumerator
(`0x00000001ULL`, `0x00000002ULL`, `0x00000004ULL`). -/
def ResultToComputeId.val : ResultToComputeId → Nat
  | .computeClassLabels => 0x00000001
  | .computeIndicesOfNeightbors => 0x00000002
  | .computeDistances => 0x00000004

/-- The `enum VoteWeights` of the header. -/
inductive VoteWeights where
  | voteUniform
  | voteDistance
  deriving DecidableEq, Repr

/-- Numeric value of a `VoteWeights` enumerator (`voteUniform = 0`, `voteDistance = 1`). -/
def VoteWeights.val : VoteWeights → Nat
  | .voteUniform => 0
  | .voteDistance => 1

/-- Conversion of a value to `DAAL_UINT64` (an unsigned 64-bit integer). -/
def toUInt64 (n : Nat) : Nat := n % 2 ^ 64

/-- The engine layer used by `Parameter`. The header only calls
`engines::mcg59::Batch<>::create()` and `engine->clone()`; their bodies live in the engines
library, which is not part of the available sources, so both are taken as parameters.
`H` is the state of the engine heap (the engine objects that exist), `P` is the type of
`engines::EnginePtr` values. Both operations may allocate, hence they return the new heap. -/
structure EngineOps (H P : Type) where
  /-- The call `engines::mcg59::Batch<>::create()`. -/
  create : H → P × H
  /-- The call `e->clone()`. -/
  clone : H → P → P × H

/-- Modelled from the spec: the base class `daal::algorithms::classifier::Parameter` is declared
in a header that is not part of the available sources. The claims name its only field used
here, `nClasses`; its constructor `classifier::Parameter(nClasses)` stores the argument and its
implicitly defined copy assignment copies the field. -/
structure classifier.Parameter where
  nClasses : Nat
  deriving DecidableEq, Repr

/-- The `struct Parameter` of the header: the inherited `nClasses` and the fields `k`,
`dataUseInModel`, `resultsToCompute`, `voteWeights` and `engine`, in declaration order. -/
structure Parameter (P : Type) extends classifier.Parameter where
  k : Nat
  dataUseInModel : DataUseInModel
  resultsToCompute : Nat
  voteWeights : VoteWeights
  engine : P
  deriving DecidableEq, Repr

/-- The default value of the constructor argument `resToCompute`:
`computeClassLabels | computeIndicesOfNeightbors | computeDistances`, converted to
`DAAL_UINT64`. -/
def defaultResToCompute : Nat :=
  toUInt64 (ResultToComputeId.computeClassLabels.val
    ||| ResultToComputeId.computeIndicesOfNeightbors.val
    ||| ResultToComputeId.computeDistances.val)

/-- The constructor `Parameter(nClasses, nNeighbors, dataUse, resToCompute, vote)`:
every argument is stored in its field and the engine is a freshly created `mcg59` engine. -/
def Parameter.ctor {H P : Type} (ops : EngineOps H P) (h : H) (nClasses nNeighbors : Nat)
    (dataUse : DataUseInModel) (resToCompute : Nat) (vote : VoteWeights) : Parameter P × H :=
  let created := ops.create h
  ({ nClasses := nClasses,
     k := nNeighbors,
     dataUseInModel := dataUse,
     resultsToCompute := resToCompute,
     voteWeights := vote,
     engine := created.1 }, created.2)

/-- The constructor called without arguments: every argument takes its default
(`nClasses = 2`, `nNeighbors = 1`, `dataUse = doNotUse`, `resToCompute` as above,
`vote = voteUniform`). -/
def Parameter.ctorDefault {H P : Type} (ops : EngineOps H P) (h : H) : Parameter P × H :=
  Parameter.ctor ops h 2 1 DataUseInModel.doNotUse defaultResToCompute VoteWeights.voteUniform

/-- The copy constructor `Parameter(const Parameter & other)`: the value of the new object and
the engine heap after the call `other.engine->clone()`. -/
def Parameter.copyCtor {H P : Type} (ops : EngineOps H P) (h : H) (other : Parameter P) :
    Parameter P × H :=
  let cloned := ops.clone h other.engine
  ({ nClasses := other.nClasses,
     k := other.k,
     dataUseInModel := other.dataUseInModel,
     resultsToCompute := other.resultsToCompute,
     voteWeights := other.voteWeights,
     engine := cloned.1 }, cloned.2)

/-- Program state for code that handles `Parameter` objects by reference: the object stored at
each address, and the engine heap. -/
structure Memory (H P : Type) where
  objs : Nat → Parameter P
  heap : H

/-- Construction of a new object at address `this` by the copy constructor applied to the
object at address `other`. -/
def Parameter.constructCopy {H P : Type} (ops : EngineOps H P) (m : Memory H P)
    (this other : Nat) : Memory H P :=
  let r := Parameter.copyCtor ops m.heap (m.objs other)
  { objs := Function.update m.objs this r.1, heap := r.2 }

/-- The copy assignment `Parameter & operator=(const Parameter & other)`, statement by
statement. `this` and `other` are the addresses of the two objects; the result is the address
the returned reference refers to, and the memory after the call. -/
def Parameter.assign {H P : Type} (ops : EngineOps H P) (m : Memory H P) (this other : Nat) :
    Nat × Memory H P :=
  if this ≠ other then
    -- daal::algorithms::classifier::Parameter::operator=(other);
    let o1 := Function.update m.objs this
      { m.objs this with nClasses := (m.objs other).nClasses }
    -- k = other.k;
    let o2 := Function.update o1 this { o1 this with k := (o1 other).k }
    -- dataUseInModel = other.dataUseInModel;
    let o3 := Function.update o2 this { o2 this with dataUseInModel := (o2 other).dataUseInModel }
    -- engine = other.engine->clone();
    let cloned := ops.clone m.heap (o3 other).engine
    let o4 := Function.update o3 this { o3 this with engine := cloned.1 }
    -- resultsToCompute = other.resultsToCompute;
    let o5 := Function.update o4 this
      { o4 this with resultsToCompute := (o4 other).resultsToCompute }
    -- voteWeights = other.voteWeights;
    let o6 := Function.update o5 this { o5 this with voteWeights := (o5 other).voteWeights }
    (this, { objs := o6, heap := cloned.2 })
  else
    (this, m)

/-- A concrete engine layer for evaluation: the heap is the list of the states of the engines
that exist, a pointer is an index into it, `create` allocates an engine in state `0` and
`clone` allocates a copy of the pointee. -/
def listEngines : EngineOps (List Nat) Nat where
  create := fun h => (h.length, h ++ [0])
  clone := fun h p => (h.length, h ++ [h.getD p 0])

/-- A concrete memory for evaluation: two different objects at addresses `0` and `1`, every
other address holding a copy of the first; two engines exist. -/
def sampleMemory : Memory (List Nat) Nat where
  objs := fun a =>
    if a = 1 then
      { nClasses := 5, k := 3, dataUseInModel := DataUseInModel.doUse, resultsToCompute := 6,
        voteWeights := VoteWeights.voteDistance, engine := 1 }
    else
      { nClasses := 2, k := 1, dataUseInModel := DataUseInModel.doNotUse, resultsToCompute := 7,
        voteWeights := VoteWeights.voteUniform, engine := 0 }
  heap := [11, 22]

end daal.algorithms.bf_knn_classification

/-! ## Part II. `oneapi::dal::test::engine::linalg` (`matrix.hpp`) -/

namespace oneapi.dal.test.engine.linalg

/-- Wrap-around of an integer result to the range of `std::int64_t`. -/
def toInt64 (z : Int) : Int := (z + 2 ^ 63) % 2 ^ 64 - 2 ^ 63

/-- Modelled from the spec: the macro `ONEDAL_ASSERT(cond, message)` is defined in a header that
is not part of the available sources. The claims speak of assertions that hold or fail, so an
assertion is a check: the computation goes on when the condition holds and stops without a
result (`none`) when it fails. -/
def ONEDAL_ASSERT (cond : Prop) [Decidable cond] : Option Unit :=
  if cond then some () else none

/-- Modelled from the spec: the macro `ONEDAL_ASSERT_MUL_OVERFLOW(std::int64_t, first, second)`
is defined in a header that is not part of the available sources. In the words of the claims it
asserts that the product is representable in `std::int64_t`. -/
def ONEDAL_ASSERT_MUL_OVERFLOW (first second : Int) : Option Unit :=
  ONEDAL_ASSERT (-(2 ^ 63) ≤ first * second ∧ first * second < 2 ^ 63)

/-- The `enum class layout`. -/
inductive layout where
  | row_major
  | column_major
  deriving DecidableEq, Repr

/-- The function `transpose_layout`. -/
def transpose_layout (l : layout) : layout :=
  if l = layout.row_major then layout.column_major else layout.row_major

/-- The data of `class shape`: the member `std::int64_t shape_[2]`. -/
structure shape where
  shape_0 : Int
  shape_1 : Int
  deriving DecidableEq, Repr

/-- The constructor `shape::shape(row_count, column_count)` with its assertions. -/
def shape.ctor (row_count column_count : Int) : Option shape := do
  ONEDAL_ASSERT (row_count ≥ 0)
  ONEDAL_ASSERT (column_count ≥ 0)
  if row_count = 0 ∨ column_count = 0 then
    ONEDAL_ASSERT (row_count = 0)
    ONEDAL_ASSERT (column_count = 0)
  ONEDAL_ASSERT_MUL_OVERFLOW row_count column_count
  pure { shape_0 := row_count, shape_1 := column_count }

/-- The member `shape::get_row_count`. -/
def shape.get_row_count (s : shape) : Int := s.shape_0

/-- The member `shape::get_column_count`. -/
def shape.get_column_count (s : shape) : Int := s.shape_1

/-- The member `shape::get_count`: a product of two `std::int64_t` values. -/
def shape.get_count (s : shape) : Int := toInt64 (s.get_row_count * s.get_column_count)

/-- The member `shape::t`: constructs `shape{ shape_[1], shape_[0] }`. -/
def shape.t (s : shape) : Option shape := shape.ctor s.shape_1 s.shape_0

/-- The member `shape::operator==`. -/
def shape.eq (s other : shape) : Bool :=
  decide (s.shape_0 = other.shape_0) && decide (s.shape_1 = other.shape_1)

/-- The member `shape::operator!=`. -/
def shape.ne (s other : shape) : Bool := !(s.eq other)

/-- The number of elements of an `array<Float>`, modelled as the list of its elements. -/
def array.get_count {α : Type} (x : List α) : Int := (x.length : Int)

/-- Read through the data pointer of an array, `get_data()[i]`; an index outside the array
has no result. -/
def array.read {α : Type} (x : List α) (i : Int) : Option α :=
  if 0 ≤ i then x.get? i.toNat else none

/-- Write through the mutable data pointer of an array, `get_mutable_data()[i] = v`; an index
outside the array has no result. -/
def array.write {α : Type} (x : List α) (i : Int) (v : α) : Option (List α) :=
  if 0 ≤ i ∧ i < array.get_count x then some (x.set i.toNat v) else none

/-- The call `array<Float>::wrap(data, count)`: an array over the `count` elements found at the
raw pointer `data` (a pointer carries no length, so it is a map from offsets to elements). -/
def array.wrap {α : Type} (data : Nat → α) (count : Int) : List α :=
  (List.range count.toNat).map data

/-- The call `array<Float>::empty(count)`: a new array of `count` elements whose contents are
unspecified; `uninit` is whatever the allocated memory holds. -/
def array.empty {α : Type} (uninit : Nat → α) (count : Int) : List α :=
  (List.range count.toNat).map uninit

/-- The data of `class matrix_base<lyt>`; the template argument `lyt` is a field. -/
structure matrix_base where
  lyt : layout
  shape_ : shape
  stride_ : Int
  deriving DecidableEq, Repr

/-- The constructor `matrix_base(const shape& s, std::int64_t stride)` with its assertion. -/
def matrix_base.ctor (lyt : layout) (s : shape) (stride : Int) : Option matrix_base := do
  match lyt with
  | layout.row_major => ONEDAL_ASSERT (stride ≥ s.get_column_count)
  | layout.column_major => ONEDAL_ASSERT (stride ≥ s.get_row_count)
  pure { lyt := lyt, shape_ := s, stride_ := stride }

/-- The static member `matrix_base::get_default_stride`. -/
def matrix_base.get_default_stride (lyt : layout) (s : shape) : Int :=
  match lyt with
  | layout.row_major => s.get_column_count
  | layout.column_major => s.get_row_count

/-- The constructor `matrix_base(const shape& s)`. -/
def matrix_base.ctor_default_stride (lyt : layout) (s : shape) : Option matrix_base :=
  matrix_base.ctor lyt s (matrix_base.get_default_stride lyt s)

/-- The member `matrix_base::get_layout`. -/
def matrix_base.get_layout (m : matrix_base) : layout := m.lyt

/-- The member `matrix_base::get_row_count`. -/
def matrix_base.get_row_count (m : matrix_base) : Int := m.shape_.get_row_count

/-- The member `matrix_base::get_column_count`. -/
def matrix_base.get_column_count (m : matrix_base) : Int := m.shape_.get_column_count

/-- The member `matrix_base::get_count`. -/
def matrix_base.get_count (m : matrix_base) : Int := m.shape_.get_count

/-- The member `matrix_base::get_shape`. -/
def matrix_base.get_shape (m : matrix_base) : shape := m.shape_

/-- The member `matrix_base::get_stride`. -/
def matrix_base.get_stride (m : matrix_base) : Int := m.stride_

/-- The member `matrix_base::get_linear_index` with its two range assertions. -/
def matrix_base.get_linear_index (m : matrix_base) (i j : Int) : Option Int := do
  ONEDAL_ASSERT (i ≥ 0 ∧ i < m.get_row_count)
  ONEDAL_ASSERT (j ≥ 0 ∧ j < m.get_column_count)
  match m.lyt with
  | layout.row_major => pure (toInt64 (toInt64 (i * m.get_stride) + j))
  | layout.column_major => pure (toInt64 (toInt64 (j * m.get_stride) + i))

/-- The data of `class matrix<Float, lyt>`: the base and the array `x_`. -/
structure matrix (α : Type) extends matrix_base where
  x_ : List α
  deriving DecidableEq, Repr

/-- The private constructor `matrix(const array<Float>& x, const shape& s, std::int64_t stride)`
with the assertion of the base constructor and its own. -/
def matrix.ctor {α : Type} (lyt : layout) (x : List α) (s : shape) (stride : Int) :
    Option (matrix α) := do
  let base ← matrix_base.ctor lyt s stride
  ONEDAL_ASSERT (s.get_count ≤ array.get_count x)
  pure { base with x_ := x }

/-- The private constructor `matrix(const array<Float>& x, const shape& s)`. -/
def matrix.ctor_default_stride {α : Type} (lyt : layout) (x : List α) (s : shape) :
    Option (matrix α) :=
  matrix.ctor lyt x s (matrix_base.get_default_stride lyt s)

/-- The default constructor `matrix() : base({ 0, 0 }, 0)`. -/
def matrix.ctor_empty {α : Type} (lyt : layout) : Option (matrix α) := do
  let s ← shape.ctor 0 0
  let base ← matrix_base.ctor lyt s 0
  pure { base with x_ := [] }

/-- The factory `matrix::wrap(const Float* data, const shape& s)`. -/
def matrix.wrap_data {α : Type} (lyt : layout) (data : Nat → α) (s : shape) :
    Option (matrix α) :=
  matrix.ctor_default_stride lyt (array.wrap data s.get_count) s

/-- The factory `matrix::wrap(const array<Float>& x)`. -/
def matrix.wrap {α : Type} (lyt : layout) (x : List α) : Option (matrix α) := do
  let s ← shape.ctor 1 (array.get_count x)
  matrix.ctor_default_stride lyt x s

/-- The factory `matrix::wrap(const array<Float>& x, const shape& s)`. -/
def matrix.wrap_shape {α : Type} (lyt : layout) (x : List α) (s : shape) : Option (matrix α) :=
  matrix.ctor_default_stride lyt x s

/-- The factory `matrix::wrap(const table& t)`. The table classes are not part of the available
sources: a table is given by its row count, its column count and the flat array `t_flat` that
`row_accessor<const Float>{ t }.pull()` returns. A layout other than row-major throws. -/
def matrix.wrap_table {α : Type} (lyt : layout) (t_row_count t_column_count : Int)
    (t_flat : List α) : Option (matrix α) :=
  if lyt ≠ layout.row_major then none
  else do
    let s ← shape.ctor t_row_count t_column_count
    matrix.wrap_shape lyt t_flat s

/-- The factory `matrix::wrap(const matrix<Float>& x)`. -/
def matrix.wrap_matrix {α : Type} (lyt : layout) (x : matrix α) : Option (matrix α) := do
  let s ← shape.ctor x.get_row_count x.get_column_count
  matrix.ctor_default_stride lyt x.x_ s

/-- The factory `matrix::wrap_nd`. The n-dimensional array classes are not part of the available
sources: the argument is given by its axis count (1 or 2, by the `static_assert`), its data
pointer and its dimensions. -/
def matrix.wrap_nd {α : Type} (lyt : layout) (axis_count : Nat) (data : Nat → α)
    (dimension_0 dimension_1 : Int) : Option (matrix α) :=
  if axis_count = 1 then do
    let s ← shape.ctor 1 dimension_0
    matrix.wrap_data lyt data s
  else do
    let s ← shape.ctor dimension_0 dimension_1
    matrix.wrap_data lyt data s

/-- The factory `matrix::empty`. -/
def matrix.empty {α : Type} (lyt : layout) (uninit : Nat → α) (s : shape) : Option (matrix α) :=
  matrix.wrap_shape lyt (array.empty uninit s.get_count) s

/-- The member `matrix::fill`: the loop `for (i = 0; i < get_count(); i++) ptr[i] = filler`. -/
def matrix.fill {α : Type} (m : matrix α) (filler : α) : Option (matrix α) := do
  let x ← (List.range m.get_count.toNat).foldlM
    (fun (ptr : List α) (i : Nat) => array.write ptr (i : Int) filler) m.x_
  pure { m with x_ := x }

/-- The factory `matrix::full`. -/
def matrix.full {α : Type} (lyt : layout) (uninit : Nat → α) (s : shape) (filler : α) :
    Option (matrix α) := do
  let m ← matrix.empty lyt uninit s
  m.fill filler

/-- The factory `matrix::ones`. -/
def matrix.ones {α : Type} [One α] (lyt : layout) (uninit : Nat → α) (s : shape) :
    Option (matrix α) :=
  matrix.full lyt uninit s 1

/-- The factory `matrix::zeros`. -/
def matrix.zeros {α : Type} [Zero α] (lyt : layout) (uninit : Nat → α) (s : shape) :
    Option (matrix α) :=
  matrix.full lyt uninit s 0

/-- The factory `matrix::eye`: `zeros({ dim, dim })` followed by the loop
`for (i = 0; i < dim; i++) data[i * dim + i] = Float(1)`. -/
def matrix.eye {α : Type} [Zero α] [One α] (lyt : layout) (uninit : Nat → α) (dim : Int) :
    Option (matrix α) := do
  let s ← shape.ctor dim dim
  let m ← matrix.zeros lyt uninit s
  let x ← (List.range dim.toNat).foldlM
    (fun (data : List α) (i : Nat) =>
      array.write data (toInt64 (toInt64 ((i : Int) * dim) + (i : Int))) 1) m.x_
  pure { m with x_ := x }

/-- The member `matrix::get_array`. -/
def matrix.get_array {α : Type} (m : matrix α) : List α := m.x_

/-- The member `matrix::has_data`. -/
def matrix.has_data {α : Type} (m : matrix α) : Bool := decide (m.get_count > 0)

/-- The member `matrix::t`. -/
def matrix.t {α : Type} (m : matrix α) : Option (matrix α) := do
  let s ← m.get_shape.t
  matrix.ctor (transpose_layout m.lyt) m.x_ s m.get_stride

/-- The member `matrix::get(linear_i)`. -/
def matrix.get_linear {α : Type} (m : matrix α) (linear_i : Int) : Option α :=
  array.read m.x_ linear_i

/-- The member `matrix::get(i, j)`. -/
def matrix.get {α : Type} (m : matrix α) (i j : Int) : Option α := do
  let linear_i ← m.get_linear_index i j
  array.read m.x_ linear_i

/-- The member `matrix::all` (for `Float = bool`): the loop
`for (i = 0; i < get_count(); i++) result = result && get(i)`, starting from `true`. The right
operand of `&&` is evaluated only when `result` is true. -/
def matrix.all (m : matrix Bool) : Option Bool :=
  (List.range m.get_count.toNat).foldlM
    (fun (result : Bool) (i : Nat) =>
      if result then m.get_linear (i : Int) else some false) true

/-- The member `matrix::any` (for `Float = bool`): the loop
`for (i = 0; i < get_count(); i++) result = result || get(i)`, starting from `false`. The right
operand of `||` is evaluated only when `result` is false. -/
def matrix.any (m : matrix Bool) : Option Bool :=
  (List.range m.get_count.toNat).foldlM
    (fun (result : Bool) (i : Nat) =>
      if result then some true else m.get_linear (i : Int)) false

/-- The element-wise negation of a boolean matrix: the same layout, shape and stride over the
array of the negated elements. It is not a member of the header; it serves to state a
property of `all` and `any`. -/
def matrix.negation (m : matrix Bool) : matrix Bool :=
  { m with x_ := m.x_.map (fun b => !b) }

/-- A concrete boolean matrix for evaluation: row-major 2 x 2 over `false, true, false, false`. -/
def sampleBoolMatrix : matrix Bool :=
  { lyt := layout.row_major, shape_ := { shape_0 := 2, shape_1 := 2 }, stride_ := 2,
    x_ := [false, true, false, false] }

/-- The invariant of a matrix: its shape passes the shape constructor, its stride is the default
stride of its layout, and the element count of the shape is at most that of the array. -/
def matrix.Inv {α : Type} (m : matrix α) : Prop :=
  shape.ctor m.shape_.shape_0 m.shape_.shape_1 = some m.shape_
    ∧ m.stride_ = matrix_base.get_default_stride m.lyt m.shape_
    ∧ m.shape_.get_count ≤ array.get_count m.x_

/-- A concrete matrix for evaluation: the transposed view of the row-major 2 x 3 matrix over
the array `1, 2, 3, 4, 5, 6`. -/
def sampleMatrix : matrix Int :=
  { lyt := layout.column_major, shape_ := { shape_0 := 3, shape_1 := 2 }, stride_ := 3,
    x_ := [1, 2, 3, 4, 5, 6] }

/-- The matrices obtained from the public factories followed by any number of `t()` calls.
A shape argument is a `shape` object, hence the result of the shape constructor. -/
inductive matrix.Reachable {α : Type} [Zero α] [One α] : matrix α → Prop where
  | ctor_empty (lyt : layout) (m : matrix α) :
      matrix.ctor_empty lyt = some m → matrix.Reachable m
  | wrap_data (lyt : layout) (data : Nat → α) (r c : Int) (s : shape) (m : matrix α) :
      shape.ctor r c = some s → matrix.wrap_data lyt data s = some m → matrix.Reachable m
  | wrap (lyt : layout) (x : List α) (m : matrix α) :
      matrix.wrap lyt x = some m → matrix.Reachable m
  | wrap_shape (lyt : layout) (x : List α) (r c : Int) (s : shape) (m : matrix α) :
      shape.ctor r c = some s → matrix.wrap_shape lyt x s = some m → matrix.Reachable m
  | wrap_table (lyt : layout) (r c : Int) (t_flat : List α) (m : matrix α) :
      matrix.wrap_table lyt r c t_flat = some m → matrix.Reachable m
  | wrap_matrix (lyt : layout) (x m : matrix α) :
      matrix.Reachable x → matrix.wrap_matrix lyt x = some m → matrix.Reachable m
  | wrap_nd (lyt : layout) (axis_count : Nat) (data : Nat → α) (d0 d1 : Int) (m : matrix α) :
      matrix.wrap_nd lyt axis_count data d0 d1 = some m → matrix.Reachable m
  | empty (lyt : layout) (uninit : Nat → α) (r c : Int) (s : shape) (m : matrix α) :
      shape.ctor r c = some s → matrix.empty lyt uninit s = some m → matrix.Reachable m
  | full (lyt : layout) (uninit : Nat → α) (r c : Int) (s : shape) (filler : α)
      (m : matrix α) :
      shape.ctor r c = some s → matrix.full lyt uninit s filler = some m → matrix.Reachable m
  | ones (lyt : layout) (uninit : Nat → α) (r c : Int) (s : shape) (m : matrix α) :
      shape.ctor r c = some s → matrix.ones lyt uninit s = some m → matrix.Reachable m
  | zeros (lyt : layout) (uninit : Nat → α) (r c : Int) (s : shape) (m : matrix α) :
      shape.ctor r c = some s → matrix.zeros lyt uninit s = some m → matrix.Reachable m
  | eye (lyt : layout) (uninit : Nat → α) (dim : Int) (m : matrix α) :
      matrix.eye lyt uninit dim = some m → matrix.Reachable m
  | t (m m' : matrix α) : matrix.Reachable m → matrix.t m = some m' → matrix.Reachable m'

end oneapi.dal.test.engine.linalg

/-! ## Part III. Gradient-boosted-tree components

The kernels of the distributed gradient-boosted-tree training (`gbt_regression_train_kernel.h`,
`gbt_regression_train_dense_default_distr_impl.i`) are included by the available sources but are
not among them. The components below follow the specification text. -/

namespace daal.algorithms.gbt.regression.training

/-- Modelled from the spec: the fatal errors named in the error taxonomy (data errors: bin index
out of range, row shape mismatch; protocol errors: incomplete aggregation, stale-result reuse,
duplicate or unexpected worker contribution). The error-handling code is not in the sources. -/
inductive GbtError where
  | binIndexOutOfRange
  | rowShapeMismatch
  | incompleteAggregation
  | staleResult
  | duplicateContribution
  | unexpectedWorker
  deriving DecidableEq, Repr

/-- Modelled from the spec: a histogram bin, "(sum of gradients, sum of hessians, row count)",
over exact rationals. The histogram kernel is not in the sources. -/
structure Bin where
  gradSum : ℚ
  hessSum : ℚ
  count : Nat
  deriving DecidableEq, Repr

/-- Modelled from the spec: the empty bin. The histogram kernel is not in the sources. -/
def Bin.zero : Bin := { gradSum := 0, hessSum := 0, count := 0 }

/-- Modelled from the spec: summation of two bins, component by component. The histogram kernel
is not in the sources. -/
def Bin.add (a b : Bin) : Bin :=
  { gradSum := a.gradSum + b.gradSum, hessSum := a.hessSum + b.hessSum,
    count := a.count + b.count }

/-- Modelled from the spec: a histogram, an "ordered sequence of bins". The histogram kernel is
not in the sources. -/
abbrev Histogram := List Bin

/-- Modelled from the spec: aggregation of two histograms "by element-wise summation". The
histogram kernel is not in the sources. -/
def Histogram.aggregate (h1 h2 : Histogram) : Histogram := List.zipWith Bin.add h1 h2

/-- Modelled from the spec: aggregation of the per-feature histogram arrays of two workers,
feature by feature. The histogram kernel is not in the sources. -/
def aggregateAll (hs1 hs2 : List Histogram) : List Histogram :=
  List.zipWith Histogram.aggregate hs1 hs2

/-- Modelled from the spec: adding one contribution to the bin with index `idx`. The histogram
kernel is not in the sources. -/
def Histogram.addAt : Histogram → Nat → Bin → Histogram
  | [], _, _ => []
  | b :: bs, 0, x => b.add x :: bs
  | b :: bs, idx + 1, x => b :: Histogram.addAt bs idx x

/-- Modelled from the spec: the feature binning of one feature, a "mapping from continuous
feature value to a discrete bin index", with its number of bins. The binning component is not
in the sources. -/
structure FeatureBinning where
  numBins : Nat
  binOf : ℚ → Nat

/-- Modelled from the spec: a row of a worker's partition (its feature vector) together with its
`GradientPair` and its `nodeAssignment` entry, the three per-row inputs of `build`. The
histogram kernel is not in the sources. -/
structure LocalRow where
  features : List ℚ
  gradient : ℚ
  hessian : ℚ
  node : Nat
  deriving DecidableEq, Repr

/-- Modelled from the spec: the visit of one row by `HistogramBuilder` for feature `f` of the
node `node`. "Rows not under this node contribute nothing"; a row of the node adds its gradient
pair and one count to its bin; "bin index out of range for a feature is a fatal error". The
histogram kernel is not in the sources. -/
def HistogramBuilder.visit (b : FeatureBinning) (f node : Nat) (hist : Histogram)
    (r : LocalRow) : Except GbtError Histogram :=
  if r.node ≠ node then pure hist
  else
    match r.features.get? f with
    | none => throw GbtError.rowShapeMismatch
    | some v =>
      if b.binOf v < b.numBins then
        pure (hist.addAt (b.binOf v) { gradSum := r.gradient, hessSum := r.hessian, count := 1 })
      else throw GbtError.binIndexOutOfRange

/-- Modelled from the spec: the histogram of one feature for one node, built by visiting every
row once, in order, starting from empty bins. The histogram kernel is not in the sources. -/
def HistogramBuilder.buildFeature (b : FeatureBinning) (f node : Nat) (rows : List LocalRow) :
    Except GbtError Histogram :=
  rows.foldlM (HistogramBuilder.visit b f node) (List.replicate b.numBins Bin.zero)

/-- Modelled from the spec: the histograms of the features `f, f + 1, ...` whose binnings are
listed, for one node. The histogram kernel is not in the sources. -/
def HistogramBuilder.buildFrom (node : Nat) (rows : List LocalRow) :
    Nat → List FeatureBinning → Except GbtError (List Histogram)
  | _, [] => pure []
  | f, b :: bs => do
    let h ← HistogramBuilder.buildFeature b f node rows
    let hs ← HistogramBuilder.buildFrom node rows (f + 1) bs
    pure (h :: hs)

/-- Modelled from the spec: `build(partition, gradientPairs, nodeAssignment, featureBinning)`,
"one histogram per feature", for the node being split. The histogram kernel is not in the
sources. -/
def HistogramBuilder.build (binning : List FeatureBinning) (node : Nat)
    (rows : List LocalRow) : Except GbtError (List Histogram) :=
  HistogramBuilder.buildFrom node rows 0 binning

/-- Modelled from the spec: the regularization constants lambda and gamma. The split kernel is
not in the sources. -/
structure Regularization where
  lambda : ℚ
  gamma : ℚ
  deriving DecidableEq, Repr

/-- Modelled from the spec: the options the split evaluator consumes (`minGain`,
`minSamplesPerNode`, `maxTreeDepth`, lambda and gamma). The split kernel is not in the
sources. -/
structure SplitConfig where
  reg : Regularization
  minGain : ℚ
  minSamplesPerNode : Nat
  maxTreeDepth : Nat
  deriving DecidableEq, Repr

/-- Modelled from the spec: a split decision, either a leaf with its value or a split by
(feature, bin threshold). The split kernel is not in the sources. -/
inductive SplitDecision where
  | leaf (value : ℚ)
  | split (feature threshold : Nat)
  deriving DecidableEq, Repr

/-- Modelled from the spec: the gradient sum, hessian sum and row count of a sequence of bins.
The split kernel is not in the sources. -/
def Histogram.sums (h : Histogram) : Bin := h.foldl Bin.add Bin.zero

/-- Modelled from the spec: the term `G^2 / (H + lambda)` of one branch, with the numeric
policy "histograms with zero hessian sum in a branch make that branch's term zero, not a
division fault". The split kernel is not in the sources. -/
def SplitEvaluator.branchTerm (reg : Regularization) (g h : ℚ) : ℚ :=
  if h = 0 then 0 else g ^ 2 / (h + reg.lambda)

/-- Modelled from the spec: the gain of splitting a feature's histogram at the boundary after
bin `boundary` (bins `0..boundary` go left, the others right):
"gain = 0.5 (G_L^2/(H_L+lambda) + G_R^2/(H_R+lambda) - G^2/(H+lambda)) - gamma", the two branch
terms under the numeric policy. The split kernel is not in the sources. -/
def SplitEvaluator.gainAt (reg : Regularization) (hist : Histogram) (boundary : Nat) : ℚ :=
  let left := Histogram.sums (hist.take (boundary + 1))
  let right := Histogram.sums (hist.drop (boundary + 1))
  let total := Histogram.sums hist
  1 / 2 * (SplitEvaluator.branchTerm reg left.gradSum left.hessSum
      + SplitEvaluator.branchTerm reg right.gradSum right.hessSum
      - total.gradSum ^ 2 / (total.hessSum + reg.lambda))
    - reg.gamma

/-- Modelled from the spec: the candidate boundaries of the histogram of feature `f`, by
boundary index, each with its gain; a boundary lies between two consecutive bins. The split
kernel is not in the sources. -/
def SplitEvaluator.featureCandidates (reg : Regularization) (f : Nat) (hist : Histogram) :
    List (Nat × Nat × ℚ) :=
  (List.range (hist.length - 1)).map (fun b => (f, b, SplitEvaluator.gainAt reg hist b))

/-- Modelled from the spec: the candidates of the features `f, f + 1, ...` whose histograms are
listed, by feature index and then by boundary index. The split kernel is not in the sources. -/
def SplitEvaluator.candidatesFrom (reg : Regularization) :
    Nat → List Histogram → List (Nat × Nat × ℚ)
  | _, [] => []
  | f, h :: hs =>
    SplitEvaluator.featureCandidates reg f h ++ SplitEvaluator.candidatesFrom reg (f + 1) hs

/-- Modelled from the spec: the candidates "for each feature, for each candidate bin boundary".
The split kernel is not in the sources. -/
def SplitEvaluator.candidates (reg : Regularization) (hists : List Histogram) :
    List (Nat × Nat × ℚ) :=
  SplitEvaluator.candidatesFrom reg 0 hists

/-- Modelled from the spec: the candidate "with maximum gain; ties broken by lowest feature
index then lowest boundary index": a later candidate replaces the best so far only when its
gain is strictly larger. The split kernel is not in the sources. -/
def SplitEvaluator.best : List (Nat × Nat × ℚ) → Option (Nat × Nat × ℚ)
  | [] => none
  | c :: cs => some (cs.foldl (fun acc d => if d.2.2 > acc.2.2 then d else acc) c)

/-- Modelled from the spec: the sums of the node, read from the histogram of the first feature
(every feature's histogram covers the same rows). The split kernel is not in the sources. -/
def SplitEvaluator.nodeTotals (hists : List Histogram) : Bin :=
  match hists with
  | [] => Bin.zero
  | h :: _ => Histogram.sums h

/-- Modelled from the spec: the leaf value "G/(H+lambda) (negated ...)", that is
`-G/(H+lambda)`; the learning rate is applied at ensemble append. The split kernel is not in
the sources. -/
def SplitEvaluator.leafValue (reg : Regularization) (total : Bin) : ℚ :=
  -(total.gradSum / (total.hessSum + reg.lambda))

/-- Modelled from the spec: `evaluate(aggregatedHistograms, regularization)` for a node at depth
`depth`. "If no candidate gain exceeds a minimum-gain threshold, or the node's row count is
below a minimum-samples threshold, or the configured maximum depth is reached, returns a Leaf
decision"; otherwise the best candidate. The split kernel is not in the sources. -/
def SplitEvaluator.evaluate (cfg : SplitConfig) (depth : Nat) (hists : List Histogram) :
    SplitDecision :=
  let total := SplitEvaluator.nodeTotals hists
  if total.count < cfg.minSamplesPerNode ∨ cfg.maxTreeDepth ≤ depth then
    SplitDecision.leaf (SplitEvaluator.leafValue cfg.reg total)
  else
    match SplitEvaluator.best (SplitEvaluator.candidates cfg.reg hists) with
    | none => SplitDecision.leaf (SplitEvaluator.leafValue cfg.reg total)
    | some c =>
      if c.2.2 > cfg.minGain then SplitDecision.split c.1 c.2.1
      else SplitDecision.leaf (SplitEvaluator.leafValue cfg.reg total)

/-- Modelled from the spec: the tag "(iteration, tree node id, step id)" of a partial result.
The partial-result exchange is not in the sources. -/
structure Tag where
  iteration : Nat
  node : Nat
  step : Nat
  deriving DecidableEq, Repr

/-- Modelled from the spec: what the store holds for a tag: either the workers whose
contribution has arrived with the aggregate accumulated so far, or the mark that the tag was
consumed by `finalize`. The partial-result exchange is not in the sources. -/
inductive TagState where
  | accumulating (arrived : List Nat) (aggregate : List Histogram)
  | consumed
  deriving DecidableEq, Repr

/-- Modelled from the spec: the `PartialResultStore`: the number of workers whose contribution
is expected for every tag (workers `0 .. numWorkers - 1`) and the state of every tag. The
partial-result exchange is not in the sources. -/
structure PartialResultStore where
  numWorkers : Nat
  state : Tag → TagState

/-- Modelled from the spec: the store before any contribution. The partial-result exchange is
not in the sources. -/
def PartialResultStore.init (numWorkers : Nat) : PartialResultStore :=
  { numWorkers := numWorkers, state := fun _ => TagState.accumulating [] [] }

/-- Modelled from the spec: the store "accepts a local contribution tagged with (iteration,
node id, step id) from a worker and merges it into an accumulating aggregate by element-wise
summation of histogram bins"; a contribution to a consumed tag, a second contribution of a
worker and a contribution of an unexpected worker are protocol errors. The partial-result
exchange is not in the sources. -/
def PartialResultStore.contribute (s : PartialResultStore) (tag : Tag) (worker : Nat)
    (hists : List Histogram) : Except GbtError PartialResultStore :=
  match s.state tag with
  | TagState.consumed => throw GbtError.staleResult
  | TagState.accumulating arrived aggregate =>
    if s.numWorkers ≤ worker then throw GbtError.unexpectedWorker
    else if worker ∈ arrived then throw GbtError.duplicateContribution
    else
      pure { s with
        state := Function.update s.state tag
          (TagState.accumulating (arrived ++ [worker])
            (if arrived = [] then hists else aggregateAll aggregate hists)) }

/-- Modelled from the spec: `finalize(tag)`: "calling finalize before all contributions arrive
is an error (incomplete aggregation)"; "a tag is consumed exactly once; reuse after finalize is
an error (stale-result reuse)". The result is the aggregate and the store in which the tag is
consumed. The partial-result exchange is not in the sources. -/
def PartialResultStore.finalize (s : PartialResultStore) (tag : Tag) :
    Except GbtError (List Histogram × PartialResultStore) :=
  match s.state tag with
  | TagState.consumed => throw GbtError.staleResult
  | TagState.accumulating arrived aggregate =>
    if arrived.length < s.numWorkers then throw GbtError.incompleteAggregation
    else pure (aggregate, { s with state := Function.update s.state tag TagState.consumed })

/-- Modelled from the spec: the element-wise sum of a sequence of contributions, in their order
of arrival. The partial-result exchange is not in the sources. -/
def sumContributions : List (List Histogram) → List Histogram
  | [] => []
  | c :: cs => cs.foldl aggregateAll c

/-- Modelled from the spec: the two operations of the store, a contribution of a worker for a
tag and `finalize` of a tag. The partial-result exchange is not in the sources. -/
inductive StoreOp where
  | contribute (tag : Tag) (worker : Nat) (hists : List Histogram)
  | finalize (tag : Tag)
  deriving DecidableEq, Repr

/-- Modelled from the spec: one operation on the store; the result of a `finalize` is handed to
the caller and the store goes on. The partial-result exchange is not in the sources. -/
def PartialResultStore.step (s : PartialResultStore) (op : StoreOp) :
    Except GbtError PartialResultStore :=
  match op with
  | StoreOp.contribute tag worker hists => s.contribute tag worker hists
  | StoreOp.finalize tag => (s.finalize tag).map (fun r => r.2)

/-- Modelled from the spec: a run of the store over a sequence of operations, in their order;
the first protocol error stops it. The partial-result exchange is not in the sources. -/
def PartialResultStore.run (s : PartialResultStore) (ops : List StoreOp) :
    Except GbtError PartialResultStore :=
  ops.foldlM PartialResultStore.step s

/-- Modelled from the spec: the contribution an operation makes to the tag `tag`, if any. The
partial-result exchange is not in the sources. -/
def StoreOp.contributionFor (tag : Tag) : StoreOp → Option (List Histogram)
  | StoreOp.contribute t _ hists => if t = tag then some hists else none
  | StoreOp.finalize _ => none

/-- Modelled from the spec: the contributions for the tag `tag` in a sequence of operations, in
their order of arrival. The partial-result exchange is not in the sources. -/
def contributionsFor (tag : Tag) (ops : List StoreOp) : List (List Histogram) :=
  ops.filterMap (StoreOp.contributionFor tag)

/-- Modelled from the spec: whether a sequence of operations holds a `finalize` of the tag
`tag`. The partial-result exchange is not in the sources. -/
def finalizedIn (tag : Tag) (ops : List StoreOp) : Bool :=
  ops.any (fun op => decide (op = StoreOp.finalize tag))

/-- Modelled from the spec: the aggregated histograms of a node, as `SplitEvaluator` receives
them: the histograms that `HistogramBuilder` builds for the node from the rows of a partition,
or the element-wise aggregate of two such arrays. The spec covers the square loss only, whose
hessian is a positive constant, so every row carries a positive hessian. The histogram kernel
and the partial-result exchange are not in the sources. -/
inductive AggregatedHistograms (binning : List FeatureBinning) (node : Nat) :
    List Histogram → Prop where
  | built (rows : List LocalRow) (hs : List Histogram) :
      (∀ r ∈ rows, 0 < r.hessian) →
      HistogramBuilder.build binning node rows = Except.ok hs →
      AggregatedHistograms binning node hs
  | aggregate (hs1 hs2 : List Histogram) :
      AggregatedHistograms binning node hs1 → AggregatedHistograms binning node hs2 →
      AggregatedHistograms binning node (aggregateAll hs1 hs2)

/-- A bin whose hessian sum is non-negative and vanishes only together with its gradient sum,
as is every sum over rows with positive hessians (the square loss has a constant positive
hessian). -/
def Bin.Regular (b : Bin) : Prop := 0 ≤ b.hessSum ∧ (b.hessSum = 0 → b.gradSum = 0)

/-- A concrete configuration for evaluation: lambda = 1, gamma = 0, minGain = 0, at least one
row per node, depth at most 10. -/
def sampleConfig : SplitConfig :=
  { reg := { lambda := 1, gamma := 0 }, minGain := 0, minSamplesPerNode := 1,
    maxTreeDepth := 10 }

/-- A concrete binning for evaluation: one feature with two bins, values below 1 in bin 0. -/
def sampleBinning : List FeatureBinning :=
  [{ numBins := 2, binOf := fun v => if v < 1 then 0 else 1 }]

/-- A concrete row for evaluation: feature value 0, gradient 6, hessian 2, node 0. -/
def sampleRowA : LocalRow := { features := [0], gradient := 6, hessian := 2, node := 0 }

/-- A concrete row for evaluation: feature value 1, gradient 4, hessian 2, node 0. -/
def sampleRowB : LocalRow := { features := [1], gradient := 4, hessian := 2, node := 0 }

/-- A concrete tag for evaluation. -/
def sampleTag : Tag := { iteration := 0, node := 0, step := 1 }

/-- Concrete operations for evaluation: the contributions of the workers `0` and `1` for
`sampleTag`. -/
def sampleOps : List StoreOp :=
  [StoreOp.contribute sampleTag 0 [[{ gradSum := 6, hessSum := 2, count := 1 }, Bin.zero]],
   StoreOp.contribute sampleTag 1 [[Bin.zero, { gradSum := 4, hessSum := 2, count := 1 }]]]

/-- The store after `sampleOps`, starting from the store for two workers. -/
def sampleStore : PartialResultStore :=
  { numWorkers := 2,
    state := Function.update
      (Function.update (PartialResultStore.init 2).state sampleTag
        (TagState.accumulating [0]
          [[{ gradSum := 6, hessSum := 2, count := 1 }, Bin.zero]]))
      sampleTag
      (TagState.accumulating [0, 1]
        (aggregateAll [[{ gradSum := 6, hessSum := 2, count := 1 }, Bin.zero]]
          [[Bin.zero, { gradSum := 4, hessSum := 2, count := 1 }]])) }

end daal.algorithms.gbt.regression.training

/-! ## Theorems -/

namespace daal.algorithms.bf_knn_classification

/-- Helper: the value `operator=` leaves in the assigned object when the two objects are
distinct. -/
theorem Parameter.assign_objs_this {H P : Type} (ops : EngineOps H P) (m : Memory H P)
    (a b : Nat) (hab : a ≠ b) :
    (Parameter.assign ops m a b).2.objs a = (Parameter.copyCtor ops m.heap (m.objs b)).1 := by
  have hba : b ≠ a := fun h => hab h.symm
  simp [Parameter.assign, Parameter.copyCtor, hab, hba, Function.update_same,
    Function.update_noteq hba]

/-- Helper: `operator=` writes to no object other than the assigned one. -/
theorem Parameter.assign_objs_other {H P : Type} (ops : EngineOps H P) (m : Memory H P)
    (a b c : Nat) (hca : c ≠ a) :
    (Parameter.assign ops m a b).2.objs c = m.objs c := by
  unfold Parameter.assign
  split
  · simp [Function.update_noteq hca]
  · rfl

/-- C1: the object constructed at a fresh address `q` by the copy constructor from the object at
address `p` has the `nClasses`, `k`, `dataUseInModel`, `resultsToCompute` and `voteWeights` of
`p`; its engine is the pointer returned by `p.engine->clone()` (and the engine heap is the one
left by that call); the object at `p`, and every object other than `q`, is unchanged. -/
theorem Parameter.copy_constructor_copies {H P : Type} (ops : EngineOps H P) (m : Memory H P)
    (q p : Nat) (hqp : q ≠ p) :
    ((Parameter.constructCopy ops m q p).objs q).nClasses = (m.objs p).nClasses
    ∧ ((Parameter.constructCopy ops m q p).objs q).k = (m.objs p).k
    ∧ ((Parameter.constructCopy ops m q p).objs q).dataUseInModel = (m.objs p).dataUseInModel
    ∧ ((Parameter.constructCopy ops m q p).objs q).resultsToCompute
        = (m.objs p).resultsToCompute
    ∧ ((Parameter.constructCopy ops m q p).objs q).voteWeights = (m.objs p).voteWeights
    ∧ ((Parameter.constructCopy ops m q p).objs q).engine
        = (ops.clone m.heap (m.objs p).engine).1
    ∧ (Parameter.constructCopy ops m q p).heap = (ops.clone m.heap (m.objs p).engine).2
    ∧ (Parameter.constructCopy ops m q p).objs p = m.objs p
    ∧ ∀ a : Nat, a ≠ q → (Parameter.constructCopy ops m q p).objs a = m.objs a := by
  have hpq : p ≠ q := fun h => hqp h.symm
  refine ⟨?_, ?_, ?_, ?_, ?_, ?_, ?_, ?_, ?_⟩ <;>
    first
      | (intro a ha; simp [Parameter.constructCopy, Function.update_noteq ha])
      | simp [Parameter.constructCopy, Parameter.copyCtor, Function.update_same,
          Function.update_noteq hpq]

/-- Witness for C1: copying the object at address `1` of `sampleMemory` to the fresh
address `2`. -/
theorem Parameter.copy_constructor_copies_witness :
    (2 : Nat) ≠ 1
    ∧ ((Parameter.constructCopy listEngines sampleMemory 2 1).objs 2).nClasses
        = (sampleMemory.objs 1).nClasses
    ∧ ((Parameter.constructCopy listEngines sampleMemory 2 1).objs 2).k
        = (sampleMemory.objs 1).k
    ∧ ((Parameter.constructCopy listEngines sampleMemory 2 1).objs 2).dataUseInModel
        = (sampleMemory.objs 1).dataUseInModel
    ∧ ((Parameter.constructCopy listEngines sampleMemory 2 1).objs 2).resultsToCompute
        = (sampleMemory.objs 1).resultsToCompute
    ∧ ((Parameter.constructCopy listEngines sampleMemory 2 1).objs 2).voteWeights
        = (sampleMemory.objs 1).voteWeights
    ∧ ((Parameter.constructCopy listEngines sampleMemory 2 1).objs 2).engine
        = (listEngines.clone sampleMemory.heap (sampleMemory.objs 1).engine).1
    ∧ (Parameter.constructCopy listEngines sampleMemory 2 1).heap
        = (listEngines.clone sampleMemory.heap (sampleMemory.objs 1).engine).2
    ∧ (Parameter.constructCopy listEngines sampleMemory 2 1).objs 1 = sampleMemory.objs 1
    ∧ ∀ a : Nat, a ≠ 2 →
        (Parameter.constructCopy listEngines sampleMemory 2 1).objs a = sampleMemory.objs a :=
  ⟨by decide, Parameter.copy_constructor_copies listEngines sampleMemory 2 1 (by decide)⟩

/-- C2: the default-constructed `Parameter` has `nClasses = 2`, `k = 1`,
`dataUseInModel = doNotUse`, `voteWeights = voteUniform` and
`resultsToCompute = computeClassLabels | computeIndicesOfNeightbors | computeDistances = 7`;
the three flags are single bits, pairwise disjoint, each set in the default
`resultsToCompute`; and the constructor stores each of its five arguments in its field. -/
theorem Parameter.ctor_stores_arguments {H P : Type} (ops : EngineOps H P) (h : H) :
    (Parameter.ctorDefault ops h).1.nClasses = 2
    ∧ (Parameter.ctorDefault ops h).1.k = 1
    ∧ (Parameter.ctorDefault ops h).1.dataUseInModel = DataUseInModel.doNotUse
    ∧ (Parameter.ctorDefault ops h).1.voteWeights = VoteWeights.voteUniform
    ∧ (Parameter.ctorDefault ops h).1.resultsToCompute
        = (ResultToComputeId.computeClassLabels.val
            ||| ResultToComputeId.computeIndicesOfNeightbors.val
            ||| ResultToComputeId.computeDistances.val)
    ∧ (Parameter.ctorDefault ops h).1.resultsToCompute = 7
    ∧ (∀ f : ResultToComputeId, ∃ i : Nat, f.val = 2 ^ i)
    ∧ (∀ f g : ResultToComputeId, f = g ∨ f.val &&& g.val = 0)
    ∧ (∀ f : ResultToComputeId, (Parameter.ctorDefault ops h).1.resultsToCompute &&& f.val ≠ 0)
    ∧ ∀ (c n : Nat) (d : DataUseInModel) (r : Nat) (v : VoteWeights),
        (Parameter.ctor ops h c n d r v).1.nClasses = c
        ∧ (Parameter.ctor ops h c n d r v).1.k = n
        ∧ (Parameter.ctor ops h c n d r v).1.dataUseInModel = d
        ∧ (Parameter.ctor ops h c n d r v).1.resultsToCompute = r
        ∧ (Parameter.ctor ops h c n d r v).1.voteWeights = v := by
  have hdef : (Parameter.ctorDefault ops h).1.resultsToCompute = defaultResToCompute := rfl
  have h7 : defaultResToCompute = 7 := by decide
  rw [hdef, h7]
  refine ⟨rfl, rfl, rfl, rfl, by decide, rfl, ?_, ?_, ?_, ?_⟩
  · intro f
    cases f
    · exact ⟨0, rfl⟩
    · exact ⟨1, rfl⟩
    · exact ⟨2, rfl⟩
  · intro f g
    cases f <;> cases g <;> decide
  · intro f
    cases f <;> decide
  · intro c n d r v
    exact ⟨rfl, rfl, rfl, rfl, rfl⟩

/-- C10: for distinct objects `a` and `b`, after `a = b` the object `a` is exactly the object
the copy constructor builds from `b` (so its five plain fields are those of `b`), its engine is
the pointer returned by `b.engine->clone()`, the engine heap is the one left by that call, and
`b` is unchanged; for the self-assignment `a = a` the whole memory, the engine pointer of `a`
and the engine heap included, is unchanged; in both cases the returned reference is `a`. -/
theorem Parameter.assign_agrees_with_copy {H P : Type} (ops : EngineOps H P) (m : Memory H P)
    (a b : Nat) (hab : a ≠ b) :
    (Parameter.assign ops m a b).1 = a
    ∧ (Parameter.assign ops m a b).2.objs a = (Parameter.copyCtor ops m.heap (m.objs b)).1
    ∧ (Parameter.assign ops m a b).2.heap = (Parameter.copyCtor ops m.heap (m.objs b)).2
    ∧ ((Parameter.assign ops m a b).2.objs a).nClasses = (m.objs b).nClasses
    ∧ ((Parameter.assign ops m a b).2.objs a).k = (m.objs b).k
    ∧ ((Parameter.assign ops m a b).2.objs a).dataUseInModel = (m.objs b).dataUseInModel
    ∧ ((Parameter.assign ops m a b).2.objs a).resultsToCompute = (m.objs b).resultsToCompute
    ∧ ((Parameter.assign ops m a b).2.objs a).voteWeights = (m.objs b).voteWeights
    ∧ ((Parameter.assign ops m a b).2.objs a).engine = (ops.clone m.heap (m.objs b).engine).1
    ∧ (Parameter.assign ops m a b).2.objs b = m.objs b
    ∧ (Parameter.assign ops m a a).1 = a
    ∧ (Parameter.assign ops m a a).2.objs = m.objs
    ∧ (Parameter.assign ops m a a).2.heap = m.heap := by
  have hba : b ≠ a := fun h => hab h.symm
  have hthis := Parameter.assign_objs_this ops m a b hab
  refine ⟨?_, hthis, ?_, ?_, ?_, ?_, ?_, ?_, ?_,
    Parameter.assign_objs_other ops m a b b hba, ?_, ?_, ?_⟩
  · simp [Parameter.assign, hab]
  · simp [Parameter.assign, Parameter.copyCtor, hab, hba, Function.update_noteq hba]
  · rw [hthis]; rfl
  · rw [hthis]; rfl
  · rw [hthis]; rfl
  · rw [hthis]; rfl
  · rw [hthis]; rfl
  · rw [hthis]; rfl
  · simp [Parameter.assign]
  · simp [Parameter.assign]
  · simp [Parameter.assign]

/-- Witness for C10: assigning the object at address `1` of `sampleMemory` to the object at
address `0`. -/
theorem Parameter.assign_agrees_with_copy_witness :
    (0 : Nat) ≠ 1
    ∧ (Parameter.assign listEngines sampleMemory 0 1).1 = 0
    ∧ (Parameter.assign listEngines sampleMemory 0 1).2.objs 0
        = { nClasses := 5, k := 3, dataUseInModel := DataUseInModel.doUse,
            resultsToCompute := 6, voteWeights := VoteWeights.voteDistance, engine := 2 }
    ∧ (Parameter.assign listEngines sampleMemory 0 1).2.heap = [11, 22, 22]
    ∧ (Parameter.assign listEngines sampleMemory 0 1).2.objs 1 = sampleMemory.objs 1
    ∧ (Parameter.assign listEngines sampleMemory 0 0).2.heap = [11, 22] :=
  have h := Parameter.assign_agrees_with_copy listEngines sampleMemory 0 1 (by decide)
  ⟨by decide, h.1, h.2.1.trans (by decide), h.2.2.1.trans (by decide), h.2.2.2.2.2.2.2.2.2.1,
    h.2.2.2.2.2.2.2.2.2.2.2.2.trans rfl⟩

end daal.algorithms.bf_knn_classification

namespace oneapi.dal.test.engine.linalg
/-- Helper: `toInt64` is the identity on the range of `std::int64_t`. -/
theorem toInt64_of_range (z : Int) (h1 : -(2 ^ 63) ≤ z) (h2 : z < 2 ^ 63) : toInt64 z = z := by
  unfold toInt64
  omega

/-- Helper: sequencing after an assertion. -/
@[simp] theorem ONEDAL_ASSERT_bind {β : Type} (cond : Prop) [Decidable cond]
    (f : Unit → Option β) :
    (ONEDAL_ASSERT cond >>= f) = if cond then f () else none := by
  unfold ONEDAL_ASSERT
  split <;> rfl

/-- Helper: the shape constructor returns a shape exactly when its assertions hold. -/
theorem shape.shape_ctor_eq_some_iff (r c : Int) (s : shape) :
    shape.ctor r c = some s ↔
      0 ≤ r ∧ 0 ≤ c ∧ (r = 0 ↔ c = 0) ∧ r * c < 2 ^ 63 ∧ s = { shape_0 := r, shape_1 := c } := by
  unfold shape.ctor ONEDAL_ASSERT_MUL_OVERFLOW
  simp only [ONEDAL_ASSERT_bind]
  by_cases hr : r ≥ 0
  · by_cases hc : c ≥ 0
    · have hmul : 0 ≤ r * c := mul_nonneg hr hc
      have hlow : -2 ^ 63 ≤ r * c := by omega
      by_cases hz : r = 0 ∨ c = 0
      · by_cases hr0 : r = 0
        · by_cases hc0 : c = 0
          · subst hr0 hc0
            simp [eq_comm]
          · simp [hr, hc, hz, hr0, hc0]
        · have hc0 : c = 0 := by omega
          simp [hr, hc, hr0, hc0]
      · have hr0 : ¬ r = 0 := fun h => hz (Or.inl h)
        have hc0 : ¬ c = 0 := fun h => hz (Or.inr h)
        by_cases hov : r * c < 2 ^ 63
        · rw [if_pos hr, if_pos hc, if_neg hz, if_pos ⟨hlow, hov⟩]
          simp [hr, hc, hr0, hc0, eq_comm]
          intros; omega
        · rw [if_pos hr, if_pos hc, if_neg hz, if_neg (fun h => hov h.2)]
          simp
          intros; omega
    · simp [hr, hc]
  · simp [hr]

/-- Helper: what the assertions give for a shape that passes them. -/
theorem shape.get_count_of_valid (s : shape) (hs : shape.ctor s.shape_0 s.shape_1 = some s) :
    s.get_count = s.shape_0 * s.shape_1 ∧ 0 ≤ s.shape_0 ∧ 0 ≤ s.shape_1
      ∧ (s.shape_0 = 0 ↔ s.shape_1 = 0) ∧ s.shape_0 * s.shape_1 < 2 ^ 63 := by
  obtain ⟨h0, h1, hz, hov, -⟩ := (shape.shape_ctor_eq_some_iff _ _ _).1 hs
  refine ⟨?_, h0, h1, hz, hov⟩
  have hmul : 0 ≤ s.shape_0 * s.shape_1 := mul_nonneg h0 h1
  exact toInt64_of_range (s.shape_0 * s.shape_1) (by omega) hov

/-- Helper: a shape returned by the constructor passes the assertions on its own fields. -/
theorem shape.ctor_valid (r c : Int) (s : shape) (hs : shape.ctor r c = some s) :
    shape.ctor s.shape_0 s.shape_1 = some s ∧ s.shape_0 = r ∧ s.shape_1 = c := by
  obtain ⟨h0, h1, hz, hov, rfl⟩ := (shape.shape_ctor_eq_some_iff _ _ _).1 hs
  exact ⟨hs, rfl, rfl⟩

/-- Helper: `t()` of a shape that passes the assertions. -/
theorem shape.t_of_valid (s : shape) (hs : shape.ctor s.shape_0 s.shape_1 = some s) :
    s.t = some { shape_0 := s.shape_1, shape_1 := s.shape_0 } := by
  obtain ⟨h0, h1, hz, hov, -⟩ := (shape.shape_ctor_eq_some_iff _ _ _).1 hs
  unfold shape.t
  rw [shape.shape_ctor_eq_some_iff]
  exact ⟨h1, h0, hz.symm, by rw [mul_comm]; exact hov, rfl⟩

/-- C9: for every shape `s` that satisfies the assertions of the shape constructor, `s.t()`
passes all of them as well (it is returned, its counts are non-negative, both zero or both
non-zero, with a product in the range of `std::int64_t`), has row count `s.get_column_count()`
and column count `s.get_row_count()`, has the same `get_count()`, and `s.t().t() == s`;
`operator!=` is the negation of `operator==` on all pairs of shapes. -/
theorem shape.t_swaps_and_is_involutive (s : shape)
    (hs : shape.ctor s.shape_0 s.shape_1 = some s) :
    ∃ st : shape, s.t = some st
      ∧ 0 ≤ st.get_row_count ∧ 0 ≤ st.get_column_count
      ∧ (st.get_row_count = 0 ↔ st.get_column_count = 0)
      ∧ -(2 ^ 63) ≤ st.get_row_count * st.get_column_count
      ∧ st.get_row_count * st.get_column_count < 2 ^ 63
      ∧ st.get_row_count = s.get_column_count
      ∧ st.get_column_count = s.get_row_count
      ∧ st.get_count = s.get_count
      ∧ (∃ stt : shape, st.t = some stt ∧ stt.eq s = true ∧ stt = s)
      ∧ ∀ a b : shape, a.ne b = !(a.eq b) := by
  obtain ⟨hcnt, h0, h1, hz, hov⟩ := shape.get_count_of_valid s hs
  have ht := shape.t_of_valid s hs
  have hst : shape.ctor s.shape_1 s.shape_0
      = some { shape_0 := s.shape_1, shape_1 := s.shape_0 } := ht
  have htt := shape.t_of_valid { shape_0 := s.shape_1, shape_1 := s.shape_0 } hst
  have hmul : 0 ≤ s.shape_1 * s.shape_0 := mul_nonneg h1 h0
  refine ⟨_, ht, h1, h0, hz.symm, ?_, ?_, rfl, rfl, ?_, ⟨_, htt, ?_, ?_⟩, fun a b => rfl⟩
  · show -(2 ^ 63) ≤ s.shape_1 * s.shape_0
    omega
  · show s.shape_1 * s.shape_0 < 2 ^ 63
    rw [mul_comm]; exact hov
  · show toInt64 (s.shape_1 * s.shape_0) = toInt64 (s.shape_0 * s.shape_1)
    rw [mul_comm]
  · simp [shape.eq]
  · rfl

/-- Witness for C9: the shape `(2, 3)`. -/
theorem shape.t_swaps_and_is_involutive_witness :
    shape.ctor (2 : Int) 3 = some { shape_0 := 2, shape_1 := 3 }
    ∧ ∃ st : shape, shape.t { shape_0 := 2, shape_1 := 3 } = some st
      ∧ st.get_row_count = 3 ∧ st.get_column_count = 2 ∧ st.get_count = 6
      ∧ ∃ stt : shape, st.t = some stt ∧ stt = { shape_0 := 2, shape_1 := 3 } := by
  refine ⟨by decide, ?_⟩
  obtain ⟨st, h1, -, -, -, -, -, h7, h8, h9, ⟨stt, h10, -, h12⟩, -⟩ :=
    shape.t_swaps_and_is_involutive { shape_0 := 2, shape_1 := 3 } (by decide)
  exact ⟨st, h1, h7, h8, h9.trans (by decide), stt, h10, h12⟩

/-- C8: evaluation at the failing input. For the empty array, `matrix::wrap(x)` constructs
`shape{ 1, 0 }`; the assertion `row_count == 0` of the shape constructor fails there, so neither
the shape nor the matrix is obtained, in either layout. -/
theorem matrix.wrap_empty_array_fails {α : Type} (lyt : layout) :
    array.get_count ([] : List α) = 0
      ∧ shape.ctor 1 (array.get_count ([] : List α)) = none
      ∧ matrix.wrap lyt ([] : List α) = none := by
  have hc : array.get_count ([] : List α) = 0 := rfl
  have hs : shape.ctor 1 0 = none := by decide
  refine ⟨hc, by rw [hc]; exact hs, ?_⟩
  unfold matrix.wrap
  rw [hc, hs]
  rfl

/-- Helper: the assertion of the base constructor says, in both layouts, that the stride is at
least the default stride. -/
theorem matrix_base.base_ctor_eq_some_iff (lyt : layout) (s : shape) (stride : Int)
    (b : matrix_base) :
    matrix_base.ctor lyt s stride = some b ↔
      matrix_base.get_default_stride lyt s ≤ stride
        ∧ b = { lyt := lyt, shape_ := s, stride_ := stride } := by
  unfold matrix_base.ctor matrix_base.get_default_stride
  cases lyt <;> simp [eq_comm]

/-- Helper: the private matrix constructor returns a matrix exactly when both assertions
hold. -/
theorem matrix.matrix_ctor_eq_some_iff {α : Type} (lyt : layout) (x : List α) (s : shape)
    (stride : Int) (m : matrix α) :
    matrix.ctor lyt x s stride = some m ↔
      matrix_base.get_default_stride lyt s ≤ stride ∧ s.get_count ≤ array.get_count x
        ∧ m = { lyt := lyt, shape_ := s, stride_ := stride, x_ := x } := by
  unfold matrix.ctor
  by_cases hb : matrix_base.get_default_stride lyt s ≤ stride
  · have h1 : matrix_base.ctor lyt s stride
        = some { lyt := lyt, shape_ := s, stride_ := stride } :=
      (matrix_base.base_ctor_eq_some_iff _ _ _ _).2 ⟨hb, rfl⟩
    rw [h1]
    by_cases hc : s.get_count ≤ array.get_count x
    · simp [hb, hc, eq_comm]
    · simp [hb, hc]
  · have h1 : matrix_base.ctor lyt s stride = none := by
      cases h : matrix_base.ctor lyt s stride with
      | none => rfl
      | some b => exact absurd ((matrix_base.base_ctor_eq_some_iff _ _ _ _).1 h).1 hb
    rw [h1]
    simp [hb]

/-- Helper: a matrix built with the default stride over a valid shape has the invariant. -/
theorem matrix.ctor_default_stride_inv {α : Type} (lyt : layout) (x : List α) (s : shape)
    (m : matrix α) (hs : shape.ctor s.shape_0 s.shape_1 = some s)
    (hm : matrix.ctor_default_stride lyt x s = some m) :
    m.Inv ∧ m.lyt = lyt ∧ m.shape_ = s ∧ m.x_ = x := by
  obtain ⟨-, hc, rfl⟩ := (matrix.matrix_ctor_eq_some_iff _ _ _ _ _).1 hm
  exact ⟨⟨hs, rfl, hc⟩, rfl, rfl, rfl⟩

/-- Helper: a write keeps the element count. -/
theorem array.write_length {α : Type} (x : List α) (i : Int) (v : α) (x' : List α)
    (h : array.write x i v = some x') : x'.length = x.length := by
  unfold array.write at h
  split at h
  · cases h
    simp
  · cases h

/-- Helper: a loop of writes keeps the element count. -/
theorem array.foldlM_write_length {α : Type} (f : Nat → Int) (v : α) :
    ∀ (l : List Nat) (x x' : List α),
      l.foldlM (fun (ptr : List α) (i : Nat) => array.write ptr (f i) v) x = some x' →
        x'.length = x.length := by
  intro l
  induction l with
  | nil =>
    intro x x' h
    simp at h
    rw [h]
  | cons a l ih =>
    intro x x' h
    rw [List.foldlM_cons] at h
    cases hw : array.write x (f a) v with
    | none => rw [hw] at h; cases h
    | some y =>
      rw [hw] at h
      have h1 := ih y x' h
      rw [h1, array.write_length x (f a) v y hw]

/-- Helper: `fill` keeps the invariant and the base. -/
theorem matrix.fill_inv {α : Type} (m m' : matrix α) (filler : α) (hm : m.Inv)
    (h : m.fill filler = some m') : m'.Inv ∧ m'.tomatrix_base = m.tomatrix_base := by
  unfold matrix.fill at h
  cases hx : (List.range m.get_count.toNat).foldlM
      (fun (ptr : List α) (i : Nat) => array.write ptr (i : Int) filler) m.x_ with
  | none => rw [hx] at h; cases h
  | some x =>
    rw [hx] at h
    have hlen := array.foldlM_write_length (fun i => (i : Int)) filler _ _ _ hx
    cases h
    refine ⟨⟨hm.1, hm.2.1, ?_⟩, rfl⟩
    have := hm.2.2
    unfold array.get_count at this ⊢
    show m.shape_.get_count ≤ (x.length : Int)
    rw [hlen]
    exact this

/-- Helper: `full` yields the invariant. -/
theorem matrix.full_inv {α : Type} (lyt : layout) (uninit : Nat → α) (s : shape) (filler : α)
    (m : matrix α) (hs : shape.ctor s.shape_0 s.shape_1 = some s)
    (h : matrix.full lyt uninit s filler = some m) : m.Inv := by
  unfold matrix.full at h
  cases he : matrix.empty lyt uninit s with
  | none => rw [he] at h; cases h
  | some e =>
    rw [he] at h
    have hinv := (matrix.ctor_default_stride_inv lyt _ s e hs he).1
    exact (matrix.fill_inv e m filler hinv h).1

/-- Helper: `eye` yields the invariant. -/
theorem matrix.eye_inv {α : Type} [Zero α] [One α] (lyt : layout) (uninit : Nat → α)
    (dim : Int) (m : matrix α) (h : matrix.eye lyt uninit dim = some m) : m.Inv := by
  unfold matrix.eye at h
  cases hs : shape.ctor dim dim with
  | none => rw [hs] at h; cases h
  | some s =>
    rw [hs] at h
    cases hz : matrix.zeros lyt uninit s with
    | none => simp [hz] at h
    | some z =>
      have hzinv : z.Inv := matrix.full_inv lyt uninit s 0 z (shape.ctor_valid _ _ _ hs).1 hz
      simp only [hz, Option.some_bind, Option.bind_eq_bind] at h
      cases hx : (List.range dim.toNat).foldlM
          (fun (data : List α) (i : Nat) =>
            array.write data (toInt64 (toInt64 ((i : Int) * dim) + (i : Int))) 1) z.x_ with
      | none => simp [hx] at h
      | some x =>
        have hlen := array.foldlM_write_length
          (fun i => toInt64 (toInt64 ((i : Int) * dim) + (i : Int))) (1 : α) _ _ _ hx
        simp [hx] at h
        subst h
        refine ⟨hzinv.1, hzinv.2.1, ?_⟩
        have := hzinv.2.2
        unfold array.get_count at this ⊢
        show z.shape_.get_count ≤ (x.length : Int)
        rw [hlen]
        exact this

/-- Helper: on a matrix with the invariant, `t()` passes its assertions and returns the view
with the transposed layout and shape and the same stride and array. -/
theorem matrix.t_of_inv {α : Type} (m : matrix α) (hm : m.Inv) :
    m.t = some { lyt := transpose_layout m.lyt,
                 shape_ := { shape_0 := m.shape_.shape_1, shape_1 := m.shape_.shape_0 },
                 stride_ := m.stride_, x_ := m.x_ } := by
  obtain ⟨hs, hst, hc⟩ := hm
  obtain ⟨hcnt, h0, h1, hz, hov⟩ := shape.get_count_of_valid _ hs
  unfold matrix.t
  have ht : m.get_shape.t = some { shape_0 := m.shape_.shape_1, shape_1 := m.shape_.shape_0 } :=
    shape.t_of_valid _ hs
  rw [ht]
  show matrix.ctor _ _ _ _ = _
  rw [matrix.matrix_ctor_eq_some_iff]
  refine ⟨?_, ?_, rfl⟩
  · show _ ≤ m.stride_
    rw [hst]
    cases m.lyt <;> exact le_refl _
  · have : shape.get_count { shape_0 := m.shape_.shape_1, shape_1 := m.shape_.shape_0 }
        = m.shape_.get_count := by
      show toInt64 (m.shape_.shape_1 * m.shape_.shape_0) = toInt64 (m.shape_.shape_0 * m.shape_.shape_1)
      rw [mul_comm]
    rw [this]
    exact hc

/-- Helper: `t()` keeps the invariant. -/
theorem matrix.t_inv {α : Type} (m m' : matrix α) (hm : m.Inv) (h : m.t = some m') :
    m'.Inv := by
  have hs := hm.1
  rw [matrix.t_of_inv m hm] at h
  cases h
  obtain ⟨hs, hst, hc⟩ := hm
  refine ⟨shape.t_of_valid _ hs, ?_, ?_⟩
  · show m.stride_ = _
    rw [hst]
    cases m.lyt <;> rfl
  · show toInt64 (m.shape_.shape_1 * m.shape_.shape_0) ≤ _
    rw [mul_comm]
    exact hc

/-- Helper: every reachable matrix has the invariant. -/
theorem matrix.Reachable.inv {α : Type} [Zero α] [One α] (m : matrix α)
    (h : matrix.Reachable m) : m.Inv := by
  induction h with
  | ctor_empty lyt m h =>
    have : m = { lyt := lyt, shape_ := { shape_0 := 0, shape_1 := 0 }, stride_ := 0, x_ := [] } := by
      cases lyt <;> (simp [matrix.ctor_empty, shape.ctor, matrix_base.ctor,
        ONEDAL_ASSERT_MUL_OVERFLOW, shape.get_column_count, shape.get_row_count] at h; exact h.symm)
    subst this
    refine ⟨(by decide : shape.ctor 0 0 = some { shape_0 := 0, shape_1 := 0 }), ?_,
      (by
        show shape.get_count { shape_0 := 0, shape_1 := 0 } ≤ ((0 : Nat) : Int)
        decide)⟩
    cases lyt <;> rfl
  | wrap_data lyt data r c s m hs h =>
    exact (matrix.ctor_default_stride_inv lyt _ s m (shape.ctor_valid _ _ _ hs).1 h).1
  | wrap lyt x m h =>
    unfold matrix.wrap at h
    cases hs : shape.ctor 1 (array.get_count x) with
    | none => rw [hs] at h; cases h
    | some s =>
      rw [hs] at h
      exact (matrix.ctor_default_stride_inv lyt _ s m (shape.ctor_valid _ _ _ hs).1 h).1
  | wrap_shape lyt x r c s m hs h =>
    exact (matrix.ctor_default_stride_inv lyt _ s m (shape.ctor_valid _ _ _ hs).1 h).1
  | wrap_table lyt r c t_flat m h =>
    unfold matrix.wrap_table at h
    split at h
    · cases h
    · cases hs : shape.ctor r c with
      | none => rw [hs] at h; cases h
      | some s =>
        rw [hs] at h
        exact (matrix.ctor_default_stride_inv lyt _ s m (shape.ctor_valid _ _ _ hs).1 h).1
  | wrap_matrix lyt x m _ h _ =>
    unfold matrix.wrap_matrix at h
    cases hs : shape.ctor (matrix_base.get_row_count x.tomatrix_base)
        (matrix_base.get_column_count x.tomatrix_base) with
    | none => rw [hs] at h; cases h
    | some s =>
      rw [hs] at h
      exact (matrix.ctor_default_stride_inv lyt _ s m (shape.ctor_valid _ _ _ hs).1 h).1
  | wrap_nd lyt axis_count data d0 d1 m h =>
    unfold matrix.wrap_nd at h
    split at h
    · cases hs : shape.ctor 1 d0 with
      | none => rw [hs] at h; cases h
      | some s =>
        rw [hs] at h
        exact (matrix.ctor_default_stride_inv lyt _ s m (shape.ctor_valid _ _ _ hs).1 h).1
    · cases hs : shape.ctor d0 d1 with
      | none => rw [hs] at h; cases h
      | some s =>
        rw [hs] at h
        exact (matrix.ctor_default_stride_inv lyt _ s m (shape.ctor_valid _ _ _ hs).1 h).1
  | empty lyt uninit r c s m hs h =>
    exact (matrix.ctor_default_stride_inv lyt _ s m (shape.ctor_valid _ _ _ hs).1 h).1
  | full lyt uninit r c s filler m hs h =>
    exact matrix.full_inv lyt uninit s filler m (shape.ctor_valid _ _ _ hs).1 h
  | ones lyt uninit r c s m hs h =>
    exact matrix.full_inv lyt uninit s 1 m (shape.ctor_valid _ _ _ hs).1 h
  | zeros lyt uninit r c s m hs h =>
    exact matrix.full_inv lyt uninit s 0 m (shape.ctor_valid _ _ _ hs).1 h
  | eye lyt uninit dim m h => exact matrix.eye_inv lyt uninit dim m h
  | t m m' _ h ih => exact matrix.t_inv m m' ih h

/-- Helper: the arithmetic of a linear index. -/
theorem matrix_base.linear_index_bound (r c i j : Int) (hi0 : 0 ≤ i) (hi : i < r)
    (hj0 : 0 ≤ j) (hj : j < c) (hov : r * c < 2 ^ 63) :
    0 ≤ i * c ∧ i * c < 2 ^ 63 ∧ 0 ≤ i * c + j ∧ i * c + j < r * c := by
  have hc : 0 ≤ c := by omega
  have h1 : i * c ≤ (r - 1) * c := mul_le_mul_of_nonneg_right (by omega) hc
  have h2 : (r - 1) * c = r * c - c := by ring
  have h3 : 0 ≤ i * c := mul_nonneg hi0 hc
  omega

/-- Helper: a read inside the array has a result. -/
theorem array.read_of_lt {α : Type} (x : List α) (i : Int) (h0 : 0 ≤ i)
    (h : i < array.get_count x) : ∃ v : α, array.read x i = some v := by
  unfold array.get_count at h
  have hlt : i.toNat < x.length := by omega
  refine ⟨x.get ⟨i.toNat, hlt⟩, ?_⟩
  unfold array.read
  rw [if_pos h0]
  exact List.get?_eq_get hlt

/-- Helper: on a matrix with the invariant an in-range `(i, j)` has a linear index inside the
shape, given by the layout formula without wrap-around, and `get(i, j)` reads the array
there. -/
theorem matrix.get_of_inv {α : Type} (m : matrix α) (hm : m.Inv) (i j : Int)
    (hi0 : 0 ≤ i) (hi : i < m.get_row_count) (hj0 : 0 ≤ j) (hj : j < m.get_column_count) :
    ∃ (lin : Int) (v : α),
      m.get_linear_index i j = some lin ∧ 0 ≤ lin ∧ lin < m.get_count
        ∧ lin = (match m.lyt with
                 | layout.row_major => i * m.get_column_count + j
                 | layout.column_major => j * m.get_row_count + i)
        ∧ m.get i j = some v ∧ m.get_linear lin = some v := by
  obtain ⟨hs, hst, hc⟩ := hm
  obtain ⟨hcnt, h0, h1, hz, hov⟩ := shape.get_count_of_valid _ hs
  have hi' : i < m.shape_.shape_0 := hi
  have hj' : j < m.shape_.shape_1 := hj
  have key : ∃ lin : Int, m.get_linear_index i j = some lin ∧ 0 ≤ lin ∧ lin < m.get_count
      ∧ lin = (match m.lyt with
                 | layout.row_major => i * m.get_column_count + j
                 | layout.column_major => j * m.get_row_count + i) := by
    unfold matrix_base.get_linear_index
    simp only [ONEDAL_ASSERT_bind]
    rw [if_pos ⟨hi0, hi⟩, if_pos ⟨hj0, hj⟩]
    have hcount : m.get_count = m.shape_.shape_0 * m.shape_.shape_1 := hcnt
    have hstride : m.get_stride = matrix_base.get_default_stride m.lyt m.shape_ := hst
    rw [hcount, hstride]
    cases hl : m.lyt with
    | row_major =>
      obtain ⟨b1, b2, b3, b4⟩ := matrix_base.linear_index_bound _ _ i j hi0 hi' hj0 hj' hov
      have e1 : toInt64 (i * m.shape_.shape_1) = i * m.shape_.shape_1 :=
        toInt64_of_range _ (by omega) b2
      have e2 : toInt64 (i * m.shape_.shape_1 + j) = i * m.shape_.shape_1 + j :=
        toInt64_of_range _ (by omega) (by omega)
      refine ⟨i * m.shape_.shape_1 + j, ?_, b3, b4, rfl⟩
      show some (toInt64 (toInt64 (i * m.shape_.shape_1) + j)) = _
      rw [e1, e2]
    | column_major =>
      have hov' : m.shape_.shape_1 * m.shape_.shape_0 < 2 ^ 63 := by rw [mul_comm]; exact hov
      obtain ⟨b1, b2, b3, b4⟩ := matrix_base.linear_index_bound _ _ j i hj0 hj' hi0 hi' hov'
      have e1 : toInt64 (j * m.shape_.shape_0) = j * m.shape_.shape_0 :=
        toInt64_of_range _ (by omega) b2
      have e2 : toInt64 (j * m.shape_.shape_0 + i) = j * m.shape_.shape_0 + i :=
        toInt64_of_range _ (by omega) (by omega)
      refine ⟨j * m.shape_.shape_0 + i, ?_, b3, ?_, rfl⟩
      · show some (toInt64 (toInt64 (j * m.shape_.shape_0) + i)) = _
        rw [e1, e2]
      · rw [mul_comm m.shape_.shape_0]; exact b4
  obtain ⟨lin, hlin, hl0, hlt, hval⟩ := key
  have hlen : lin < array.get_count m.x_ := lt_of_lt_of_le hlt hc
  obtain ⟨v, hv⟩ := array.read_of_lt m.x_ lin hl0 hlen
  refine ⟨lin, v, hlin, hl0, hlt, hval, ?_, hv⟩
  unfold matrix.get
  rw [hlin]
  exact hv

/-- C7: for every matrix obtained from the public factories followed by any number of `t()`
calls, the stride is at least the column count (row-major) or the row count (column-major), it
equals the default stride of the layout, the element count of the shape is at most that of the
array, a further `t()` passes its constructor assertions, and for every in-range `(i, j)`
`get_linear_index(i, j)` is returned with `0 <= index < get_count()`, the index is inside the
array and `get(i, j)` reads an element. -/
theorem matrix.reachable_indices_in_bounds {α : Type} [Zero α] [One α] (m : matrix α)
    (h : matrix.Reachable m) :
    (match m.get_layout with
      | layout.row_major => m.get_stride ≥ m.get_column_count
      | layout.column_major => m.get_stride ≥ m.get_row_count)
    ∧ m.get_stride = matrix_base.get_default_stride m.get_layout m.get_shape
    ∧ m.get_shape.get_count ≤ array.get_count m.get_array
    ∧ (∃ mt : matrix α, m.t = some mt)
    ∧ ∀ i j : Int, 0 ≤ i → i < m.get_row_count → 0 ≤ j → j < m.get_column_count →
        ∃ (lin : Int) (v : α),
          m.get_linear_index i j = some lin ∧ 0 ≤ lin ∧ lin < m.get_count
            ∧ lin < array.get_count m.get_array ∧ m.get i j = some v := by
  have hm := matrix.Reachable.inv m h
  refine ⟨?_, hm.2.1, hm.2.2, ⟨_, matrix.t_of_inv m hm⟩, ?_⟩
  · have hst : m.get_stride = matrix_base.get_default_stride m.lyt m.shape_ := hm.2.1
    show (match m.lyt with
      | layout.row_major => m.get_stride ≥ m.get_column_count
      | layout.column_major => m.get_stride ≥ m.get_row_count)
    rw [hst]
    cases m.lyt <;> exact le_refl _
  · intro i j hi0 hi hj0 hj
    obtain ⟨lin, v, h1, h2, h3, -, h5, -⟩ := matrix.get_of_inv m hm i j hi0 hi hj0 hj
    exact ⟨lin, v, h1, h2, h3, lt_of_lt_of_le h3 hm.2.2, h5⟩

/-- Helper: for a non-empty array, `matrix::wrap(x)` is the `1 x n` matrix whose element
`(0, j)` is `x[j]`. -/
theorem matrix.wrap_nonempty_array {α : Type} (lyt : layout) (x : List α)
    (hpos : 0 < x.length) (hlt : (x.length : Int) < 2 ^ 63) :
    ∃ m : matrix α, matrix.wrap lyt x = some m
      ∧ m.get_row_count = 1 ∧ m.get_column_count = (x.length : Int)
      ∧ ∀ j : Nat, j < x.length → m.get 0 (j : Int) = x.get? j := by
  have hs : shape.ctor 1 (array.get_count x)
      = some { shape_0 := 1, shape_1 := (x.length : Int) } := by
    rw [shape.shape_ctor_eq_some_iff]
    unfold array.get_count
    refine ⟨by omega, by omega, by omega, by omega, rfl⟩
  have hv := (shape.ctor_valid _ _ _ hs).1
  have hcnt : shape.get_count { shape_0 := 1, shape_1 := (x.length : Int) } = (x.length : Int) := by
    rw [(shape.get_count_of_valid _ hv).1]
    show (1 : Int) * (x.length : Int) = _
    omega
  have hm : matrix.wrap lyt x
      = some { lyt := lyt, shape_ := { shape_0 := 1, shape_1 := (x.length : Int) },
               stride_ := matrix_base.get_default_stride lyt
                 { shape_0 := 1, shape_1 := (x.length : Int) },
               x_ := x } := by
    unfold matrix.wrap
    rw [hs]
    show matrix.ctor _ _ _ _ = _
    rw [matrix.matrix_ctor_eq_some_iff]
    refine ⟨le_refl _, ?_, rfl⟩
    rw [hcnt]
    exact le_refl _
  refine ⟨_, hm, rfl, rfl, ?_⟩
  intro j hj
  have hinv : matrix.Inv
      ({ lyt := lyt, shape_ := { shape_0 := 1, shape_1 := (x.length : Int) },
         stride_ := matrix_base.get_default_stride lyt
           { shape_0 := 1, shape_1 := (x.length : Int) },
         x_ := x } : matrix α) := ⟨hv, rfl, by rw [hcnt]; exact le_refl _⟩
  obtain ⟨lin, v, h1, h2, h3, h4, h5, h6⟩ :=
    matrix.get_of_inv _ hinv 0 (j : Int) (le_refl _) (show (0 : Int) < 1 by decide) (by omega)
      (by show (j : Int) < (x.length : Int); omega)
  have hlin : lin = (j : Int) := by
    rw [h4]
    cases lyt
    · show (0 : Int) * (x.length : Int) + (j : Int) = j
      omega
    · show (j : Int) * 1 + 0 = (j : Int)
      omega
  rw [h5, ← h6, hlin]
  show array.read x (j : Int) = x.get? j
  unfold array.read
  simp

/-- Witness for C7: the transposed view of a wrapped 2 x 3 matrix. -/
theorem matrix.reachable_indices_in_bounds_witness :
    matrix.Reachable sampleMatrix
    ∧ (match sampleMatrix.get_layout with
      | layout.row_major => sampleMatrix.get_stride ≥ sampleMatrix.get_column_count
      | layout.column_major => sampleMatrix.get_stride ≥ sampleMatrix.get_row_count)
    ∧ sampleMatrix.get_stride
        = matrix_base.get_default_stride sampleMatrix.get_layout sampleMatrix.get_shape
    ∧ sampleMatrix.get_shape.get_count ≤ array.get_count sampleMatrix.get_array
    ∧ (∃ mt : matrix Int, sampleMatrix.t = some mt)
    ∧ ∀ i j : Int, 0 ≤ i → i < sampleMatrix.get_row_count → 0 ≤ j →
        j < sampleMatrix.get_column_count →
        ∃ (lin : Int) (v : Int),
          sampleMatrix.get_linear_index i j = some lin ∧ 0 ≤ lin ∧ lin < sampleMatrix.get_count
            ∧ lin < array.get_count sampleMatrix.get_array ∧ sampleMatrix.get i j = some v :=
  have hr : matrix.Reachable sampleMatrix :=
    matrix.Reachable.t
      ({ lyt := layout.row_major, shape_ := { shape_0 := 2, shape_1 := 3 }, stride_ := 3,
         x_ := [1, 2, 3, 4, 5, 6] } : matrix Int)
      sampleMatrix
      (matrix.Reachable.wrap_shape layout.row_major ([1, 2, 3, 4, 5, 6] : List Int) 2 3
        { shape_0 := 2, shape_1 := 3 } _ (by decide) (by decide))
      (by decide)
  ⟨hr, matrix.reachable_indices_in_bounds sampleMatrix hr⟩


end oneapi.dal.test.engine.linalg

namespace daal.algorithms.gbt.regression.training

/-- Helper: bin summation is commutative. -/
theorem Bin.add_commutative (a b : Bin) : a.add b = b.add a := by
  simp [Bin.add, add_comm]

/-- Helper: bin summation is associative. -/
theorem Bin.add_associative (a b c : Bin) : (a.add b).add c = a.add (b.add c) := by
  simp [Bin.add, add_assoc]

/-- Helper: the empty bin is neutral. -/
theorem Bin.add_zero_right (a : Bin) : a.add Bin.zero = a := by
  simp [Bin.add, Bin.zero]

/-- Helper: aggregation of two histograms is commutative. -/
theorem Histogram.aggregate_comm (h1 h2 : Histogram) :
    Histogram.aggregate h1 h2 = Histogram.aggregate h2 h1 := by
  unfold Histogram.aggregate
  exact List.zipWith_comm_of_comm _ Bin.add_commutative _ _

/-- Helper: aggregation of two histogram arrays is commutative. -/
theorem aggregateAll_comm (hs1 hs2 : List Histogram) :
    aggregateAll hs1 hs2 = aggregateAll hs2 hs1 := by
  unfold aggregateAll
  exact List.zipWith_comm_of_comm _ Histogram.aggregate_comm _ _

/-- Helper: adding to a bin keeps the number of bins. -/
theorem Histogram.addAt_length (h : Histogram) (i : Nat) (x : Bin) :
    (h.addAt i x).length = h.length := by
  induction h generalizing i with
  | nil => rfl
  | cons b bs ih =>
    cases i with
    | zero => rfl
    | succ i => simp [Histogram.addAt, ih]

/-- Helper: adding to a bin commutes with aggregation on the left. -/
theorem Histogram.addAt_aggregate (a h : Histogram) (i : Nat) (x : Bin) :
    (Histogram.aggregate a h).addAt i x = Histogram.aggregate a (h.addAt i x) := by
  induction a generalizing h i with
  | nil => simp [Histogram.aggregate, Histogram.addAt]
  | cons a0 as ih =>
    cases h with
    | nil => simp [Histogram.aggregate, Histogram.addAt]
    | cons h0 hs =>
      cases i with
      | zero => simp [Histogram.aggregate, Histogram.addAt, Bin.add_associative]
      | succ i =>
        have := ih hs i
        simp only [Histogram.aggregate] at this
        simp [Histogram.aggregate, Histogram.addAt, this]

/-- Helper: two additions to bins commute. -/
theorem Histogram.addAt_comm (h : Histogram) (i j : Nat) (x y : Bin) :
    (h.addAt i x).addAt j y = (h.addAt j y).addAt i x := by
  induction h generalizing i j with
  | nil => rfl
  | cons b bs ih =>
    cases i with
    | zero =>
      cases j with
      | zero =>
        simp only [Histogram.addAt]
        rw [Bin.add_associative, Bin.add_commutative x y, ← Bin.add_associative]
      | succ j => rfl
    | succ i =>
      cases j with
      | zero => rfl
      | succ j => simp [Histogram.addAt, ih]

/-- Helper: aggregation with empty bins changes nothing. -/
theorem Histogram.aggregate_zero (a : Histogram) :
    Histogram.aggregate a (List.replicate a.length Bin.zero) = a := by
  induction a with
  | nil => rfl
  | cons a0 as ih =>
    simp only [Histogram.aggregate] at ih
    simp [Histogram.aggregate, List.replicate, Bin.add_zero_right, ih]

/-- Helper: a successful visit commutes with aggregation on the left. -/
theorem HistogramBuilder.visit_aggregate (b : FeatureBinning) (f node : Nat) (h h' : Histogram)
    (r : LocalRow) (hv : HistogramBuilder.visit b f node h r = Except.ok h') :
    h'.length = h.length ∧ ∀ a : Histogram,
      HistogramBuilder.visit b f node (Histogram.aggregate a h) r
        = Except.ok (Histogram.aggregate a h') := by
  unfold HistogramBuilder.visit at hv ⊢
  by_cases hn : r.node ≠ node
  · simp only [if_pos hn] at hv ⊢
    cases hv
    exact ⟨rfl, fun a => rfl⟩
  · simp only [if_neg hn] at hv ⊢
    cases hf : r.features.get? f with
    | none => rw [hf] at hv; cases hv
    | some v =>
      rw [hf] at hv
      simp only at hv ⊢
      by_cases hb : b.binOf v < b.numBins
      · simp only [if_pos hb] at hv ⊢
        cases hv
        refine ⟨Histogram.addAt_length _ _ _, fun a => ?_⟩
        rw [Histogram.addAt_aggregate]
        rfl
      · simp only [if_neg hb] at hv
        cases hv

/-- Helper: a successful sequence of visits commutes with aggregation on the left. -/
theorem HistogramBuilder.foldlM_visit_aggregate (b : FeatureBinning) (f node : Nat) :
    ∀ (rows : List LocalRow) (h h' : Histogram),
      rows.foldlM (HistogramBuilder.visit b f node) h = Except.ok h' →
        h'.length = h.length ∧ ∀ a : Histogram,
          rows.foldlM (HistogramBuilder.visit b f node) (Histogram.aggregate a h)
            = Except.ok (Histogram.aggregate a h') := by
  intro rows
  induction rows with
  | nil =>
    intro h h' hv
    cases hv
    exact ⟨rfl, fun a => rfl⟩
  | cons r rs ih =>
    intro h h' hv
    rw [List.foldlM_cons] at hv
    cases h1 : HistogramBuilder.visit b f node h r with
    | error e => rw [h1] at hv; cases hv
    | ok h1v =>
      rw [h1] at hv
      obtain ⟨hl1, ha1⟩ := HistogramBuilder.visit_aggregate b f node h h1v r h1
      obtain ⟨hl2, ha2⟩ := ih h1v h' hv
      refine ⟨hl2.trans hl1, fun a => ?_⟩
      rw [List.foldlM_cons, ha1 a]
      exact ha2 a

/-- Helper: a built histogram has the number of bins of the binning. -/
theorem HistogramBuilder.buildFeature_length (b : FeatureBinning) (f node : Nat)
    (rows : List LocalRow) (h : Histogram)
    (hb : HistogramBuilder.buildFeature b f node rows = Except.ok h) :
    h.length = b.numBins := by
  have := (HistogramBuilder.foldlM_visit_aggregate b f node rows _ h hb).1
  simpa using this

/-- Helper: the histogram of two row lists in sequence is the aggregate of their histograms. -/
theorem HistogramBuilder.buildFeature_append (b : FeatureBinning) (f node : Nat)
    (rows1 rows2 : List LocalRow) (h1 h2 : Histogram)
    (hb1 : HistogramBuilder.buildFeature b f node rows1 = Except.ok h1)
    (hb2 : HistogramBuilder.buildFeature b f node rows2 = Except.ok h2) :
    HistogramBuilder.buildFeature b f node (rows1 ++ rows2)
      = Except.ok (Histogram.aggregate h1 h2) := by
  have hlen := HistogramBuilder.buildFeature_length b f node rows1 h1 hb1
  have h2a := (HistogramBuilder.foldlM_visit_aggregate b f node rows2 _ h2 hb2).2 h1
  rw [← hlen, Histogram.aggregate_zero] at h2a
  unfold HistogramBuilder.buildFeature at hb1 ⊢
  rw [List.foldlM_append, hb1]
  exact h2a

/-- Helper: a visit fails, leaves the histogram, or adds a fixed contribution to a fixed bin, whatever the histogram. -/
theorem HistogramBuilder.visit_cases (b : FeatureBinning) (f node : Nat) (r : LocalRow) :
    (∃ e : GbtError, ∀ g : Histogram, HistogramBuilder.visit b f node g r = Except.error e)
    ∨ (∀ g : Histogram, HistogramBuilder.visit b f node g r = Except.ok g)
    ∨ (∃ (i : Nat) (x : Bin), ∀ g : Histogram,
        HistogramBuilder.visit b f node g r = Except.ok (g.addAt i x)) := by
  unfold HistogramBuilder.visit
  by_cases hn : r.node ≠ node
  · right; left
    intro g
    rw [if_pos hn]
    rfl
  · cases hf : r.features.get? f with
    | none =>
      left
      exact ⟨GbtError.rowShapeMismatch, fun g => by rw [if_neg hn]; rfl⟩
    | some v =>
      by_cases hb : b.binOf v < b.numBins
      · right; right
        exact ⟨b.binOf v, { gradSum := r.gradient, hessSum := r.hessian, count := 1 },
          fun g => by rw [if_neg hn]; simp only; rw [if_pos hb]; rfl⟩
      · left
        exact ⟨GbtError.binIndexOutOfRange,
          fun g => by rw [if_neg hn]; simp only; rw [if_neg hb]; rfl⟩

/-- Helper: two successful visits commute. -/
theorem HistogramBuilder.visit_swap (b : FeatureBinning) (f node : Nat) (h h' : Histogram)
    (r1 r2 : LocalRow)
    (hv : (HistogramBuilder.visit b f node h r1 >>= fun h1 =>
      HistogramBuilder.visit b f node h1 r2) = Except.ok h') :
    (HistogramBuilder.visit b f node h r2 >>= fun h1 => HistogramBuilder.visit b f node h1 r1)
        = Except.ok h' := by
  rcases HistogramBuilder.visit_cases b f node r1 with ⟨e1, h1⟩ | h1 | ⟨i1, x1, h1⟩ <;>
  rcases HistogramBuilder.visit_cases b f node r2 with ⟨e2, h2⟩ | h2 | ⟨i2, x2, h2⟩ <;>
  simp only [h1, h2] at hv ⊢ <;>
  first
    | exact hv
    | (cases hv; done)
    | (cases hv; exact congrArg Except.ok (Histogram.addAt_comm h i2 i1 x2 x1))

/-- Helper: the first two visits of a sequence. -/
theorem HistogramBuilder.foldlM_cons_cons (b : FeatureBinning) (f node : Nat) (h : Histogram)
    (r1 r2 : LocalRow) (l : List LocalRow) :
    (r1 :: r2 :: l).foldlM (HistogramBuilder.visit b f node) h
      = (HistogramBuilder.visit b f node h r1 >>= fun h1 =>
          HistogramBuilder.visit b f node h1 r2) >>= l.foldlM (HistogramBuilder.visit b f node) := by
  rw [List.foldlM_cons, bind_assoc]
  congr 1

/-- Helper: a successful sequence of visits gives the same histogram in any order of the rows. -/
theorem HistogramBuilder.foldlM_visit_perm (b : FeatureBinning) (f node : Nat)
    (l1 l2 : List LocalRow) (hp : l1.Perm l2) :
    ∀ h h' : Histogram, l1.foldlM (HistogramBuilder.visit b f node) h = Except.ok h' →
      l2.foldlM (HistogramBuilder.visit b f node) h = Except.ok h' := by
  induction hp with
  | nil => intro h h' hv; exact hv
  | cons r _ ih =>
    intro h h' hv
    rw [List.foldlM_cons] at hv ⊢
    cases h1 : HistogramBuilder.visit b f node h r with
    | error e => rw [h1] at hv; cases hv
    | ok h1v =>
      rw [h1] at hv
      exact ih h1v h' hv
  | swap r1 r2 l =>
    intro h h' hv
    rw [HistogramBuilder.foldlM_cons_cons] at hv ⊢
    cases h12 : (HistogramBuilder.visit b f node h r2 >>= fun h1 =>
        HistogramBuilder.visit b f node h1 r1) with
    | error e =>
      rw [h12] at hv
      cases hv
    | ok g =>
      rw [h12] at hv
      rw [HistogramBuilder.visit_swap b f node h g r2 r1 h12]
      exact hv
  | trans _ _ ih1 ih2 =>
    intro h h' hv
    exact ih2 h h' (ih1 h h' hv)

/-- Helper: the histogram of one feature on the union of two row sets. -/
theorem HistogramBuilder.buildFeature_union (b : FeatureBinning) (f node : Nat)
    (rows1 rows2 union : List LocalRow) (h1 h2 : Histogram)
    (hu : union.Perm (rows1 ++ rows2))
    (hb1 : HistogramBuilder.buildFeature b f node rows1 = Except.ok h1)
    (hb2 : HistogramBuilder.buildFeature b f node rows2 = Except.ok h2) :
    HistogramBuilder.buildFeature b f node union = Except.ok (Histogram.aggregate h1 h2) :=
  HistogramBuilder.foldlM_visit_perm b f node _ _ hu.symm _ _
    (HistogramBuilder.buildFeature_append b f node rows1 rows2 h1 h2 hb1 hb2)

/-- Helper: the histograms of all features on the union of two row sets. -/
theorem HistogramBuilder.buildFrom_union (node : Nat) (rows1 rows2 union : List LocalRow)
    (hu : union.Perm (rows1 ++ rows2)) :
    ∀ (l : List FeatureBinning) (f : Nat) (hs1 hs2 : List Histogram),
      HistogramBuilder.buildFrom node rows1 f l = Except.ok hs1 →
      HistogramBuilder.buildFrom node rows2 f l = Except.ok hs2 →
      HistogramBuilder.buildFrom node union f l = Except.ok (aggregateAll hs1 hs2) := by
  intro l
  induction l with
  | nil =>
    intro f hs1 hs2 e1 e2
    cases e1; cases e2
    rfl
  | cons p ps ih =>
    intro f hs1 hs2 e1 e2
    unfold HistogramBuilder.buildFrom at e1 e2 ⊢
    cases a1 : HistogramBuilder.buildFeature p f node rows1 with
    | error e => rw [a1] at e1; cases e1
    | ok g1 =>
      cases a2 : HistogramBuilder.buildFeature p f node rows2 with
      | error e => rw [a2] at e2; cases e2
      | ok g2 =>
        rw [a1] at e1
        rw [a2] at e2
        cases t1 : HistogramBuilder.buildFrom node rows1 (f + 1) ps with
        | error e => rw [t1] at e1; cases e1
        | ok k1 =>
          cases t2 : HistogramBuilder.buildFrom node rows2 (f + 1) ps with
          | error e => rw [t2] at e2; cases e2
          | ok k2 =>
            rw [t1] at e1
            rw [t2] at e2
            cases e1; cases e2
            rw [HistogramBuilder.buildFeature_union p f node rows1 rows2 union g1 g2 hu a1 a2,
              ih (f + 1) k1 k2 t1 t2]
            rfl

/-- C5: for histogram arrays `hs1` and `hs2` built by `HistogramBuilder` with the same feature
binning for the same node on two row subsets, and for any list `union` holding exactly the rows
of both (in any order), the histograms built directly on `union` are the element-wise aggregate
of `hs1` and `hs2`, feature by feature and bin by bin (gradient sum, hessian sum and row count,
over exact rationals); and aggregation is commutative. -/
theorem HistogramBuilder.aggregate_eq_build_union (binning : List FeatureBinning) (node : Nat)
    (rows1 rows2 union : List LocalRow) (hs1 hs2 : List Histogram)
    (hu : union.Perm (rows1 ++ rows2))
    (hb1 : HistogramBuilder.build binning node rows1 = Except.ok hs1)
    (hb2 : HistogramBuilder.build binning node rows2 = Except.ok hs2) :
    HistogramBuilder.build binning node union = Except.ok (aggregateAll hs1 hs2)
    ∧ aggregateAll hs1 hs2 = aggregateAll hs2 hs1
    ∧ (∀ h1 h2 : Histogram, Histogram.aggregate h1 h2 = Histogram.aggregate h2 h1)
    ∧ ∀ (f : Nat) (h1 h2 : Histogram), hs1[f]? = some h1 → hs2[f]? = some h2 →
        (aggregateAll hs1 hs2)[f]? = some (Histogram.aggregate h1 h2)
        ∧ ∀ (i : Nat) (b1 b2 : Bin), h1[i]? = some b1 → h2[i]? = some b2 →
            (Histogram.aggregate h1 h2)[i]?
              = some { gradSum := b1.gradSum + b2.gradSum, hessSum := b1.hessSum + b2.hessSum,
                       count := b1.count + b2.count } := by
  refine ⟨HistogramBuilder.buildFrom_union node rows1 rows2 union hu binning 0 hs1 hs2 hb1 hb2,
    aggregateAll_comm hs1 hs2, Histogram.aggregate_comm, ?_⟩
  intro f h1 h2 e1 e2
  refine ⟨?_, ?_⟩
  · unfold aggregateAll
    rw [List.getElem?_zipWith_eq_some]
    exact ⟨h1, h2, e1, e2, rfl⟩
  · intro i b1 b2 e1 e2
    unfold Histogram.aggregate
    rw [List.getElem?_zipWith_eq_some]
    exact ⟨b1, b2, e1, e2, rfl⟩

/-- Witness for C5: two one-row subsets and their union in the other order. -/
theorem HistogramBuilder.aggregate_eq_build_union_witness :
    [sampleRowB, sampleRowA].Perm ([sampleRowA] ++ [sampleRowB])
    ∧ HistogramBuilder.build sampleBinning 0 [sampleRowA]
        = Except.ok [[{ gradSum := 6, hessSum := 2, count := 1 }, Bin.zero]]
    ∧ HistogramBuilder.build sampleBinning 0 [sampleRowB]
        = Except.ok [[Bin.zero, { gradSum := 4, hessSum := 2, count := 1 }]]
    ∧ HistogramBuilder.build sampleBinning 0 [sampleRowB, sampleRowA]
        = Except.ok (aggregateAll [[{ gradSum := 6, hessSum := 2, count := 1 }, Bin.zero]]
            [[Bin.zero, { gradSum := 4, hessSum := 2, count := 1 }]]) :=
  have hp : [sampleRowB, sampleRowA].Perm ([sampleRowA] ++ [sampleRowB]) :=
    List.Perm.swap sampleRowA sampleRowB []
  have h1 : HistogramBuilder.build sampleBinning 0 [sampleRowA]
      = Except.ok [[{ gradSum := 6, hessSum := 2, count := 1 }, Bin.zero]] := by
    simp [HistogramBuilder.build, HistogramBuilder.buildFrom, sampleBinning,
      HistogramBuilder.buildFeature, HistogramBuilder.visit, sampleRowA, Histogram.addAt,
      Bin.add, Bin.zero, List.replicate]
    rfl
  have h2 : HistogramBuilder.build sampleBinning 0 [sampleRowB]
      = Except.ok [[Bin.zero, { gradSum := 4, hessSum := 2, count := 1 }]] := by
    simp [HistogramBuilder.build, HistogramBuilder.buildFrom, sampleBinning,
      HistogramBuilder.buildFeature, HistogramBuilder.visit, sampleRowB, Histogram.addAt,
      Bin.add, Bin.zero, List.replicate]
    rfl
  ⟨hp, h1, h2,
    (HistogramBuilder.aggregate_eq_build_union sampleBinning 0 [sampleRowA] [sampleRowB]
      [sampleRowB, sampleRowA] _ _ hp h1 h2).1⟩

/-- Helper: summing bins from a start value. -/
theorem Histogram.foldl_add (h : Histogram) (a : Bin) :
    h.foldl Bin.add a = a.add (h.foldl Bin.add Bin.zero) := by
  induction h generalizing a with
  | nil => exact (Bin.add_zero_right a).symm
  | cons b bs ih =>
    simp only [List.foldl_cons]
    rw [ih (a.add b), ih (Bin.zero.add b), Bin.add_commutative Bin.zero b, Bin.add_zero_right,
      Bin.add_associative]

/-- Helper: the sums of a histogram are those of its left part plus those of its right part. -/
theorem Histogram.sums_take_drop (h : Histogram) (n : Nat) :
    Histogram.sums h = (Histogram.sums (h.take n)).add (Histogram.sums (h.drop n)) := by
  unfold Histogram.sums
  conv_lhs => rw [← List.take_append_drop n h]
  rw [List.foldl_append, Histogram.foldl_add]

/-- Helper: the best candidate is one of the candidates. -/
theorem SplitEvaluator.best_mem :
    ∀ (cs : List (Nat × Nat × ℚ)) (c : Nat × Nat × ℚ), SplitEvaluator.best cs = some c → c ∈ cs := by
  intro cs c h
  cases cs with
  | nil => cases h
  | cons c0 cs =>
    simp only [SplitEvaluator.best, Option.some.injEq] at h
    subst h
    have key : ∀ (l : List (Nat × Nat × ℚ)) (a : Nat × Nat × ℚ),
        l.foldl (fun acc d => if d.2.2 > acc.2.2 then d else acc) a = a
          ∨ l.foldl (fun acc d => if d.2.2 > acc.2.2 then d else acc) a ∈ l := by
      intro l
      induction l with
      | nil => intro a; exact Or.inl rfl
      | cons d ds ih =>
        intro a
        simp only [List.foldl_cons]
        rcases ih (if d.2.2 > a.2.2 then d else a) with h1 | h1
        · rw [h1]
          by_cases hd : d.2.2 > a.2.2
          · rw [if_pos hd]; exact Or.inr (List.mem_cons_self _ _)
          · rw [if_neg hd]; exact Or.inl rfl
        · exact Or.inr (List.mem_cons_of_mem _ h1)
    rcases key cs c0 with h1 | h1
    · rw [h1]; exact List.mem_cons_self _ _
    · exact List.mem_cons_of_mem _ h1

/-- Helper: every candidate is a boundary of one of the histograms, with its gain. -/
theorem SplitEvaluator.mem_candidatesFrom (reg : Regularization) :
    ∀ (hists : List Histogram) (f0 : Nat) (c : Nat × Nat × ℚ),
      c ∈ SplitEvaluator.candidatesFrom reg f0 hists →
        ∃ (k : Nat) (hist : Histogram), hists[k]? = some hist ∧ c.1 = f0 + k
          ∧ c.2.1 + 1 < hist.length ∧ c.2.2 = SplitEvaluator.gainAt reg hist c.2.1 := by
  intro hists
  induction hists with
  | nil => intro f0 c h; cases h
  | cons h0 hs ih =>
    intro f0 c h
    simp only [SplitEvaluator.candidatesFrom, List.mem_append] at h
    rcases h with h | h
    · simp only [SplitEvaluator.featureCandidates, List.mem_map, List.mem_range] at h
      obtain ⟨b, hb, rfl⟩ := h
      exact ⟨0, h0, by simp, rfl, by show b + 1 < h0.length; omega, rfl⟩
    · obtain ⟨k, hist, e1, e2, e3, e4⟩ := ih (f0 + 1) c h
      exact ⟨k + 1, hist, by simpa using e1, by omega, e3, e4⟩

/-- Helper: the sum of two regular bins is regular. -/
theorem Bin.Regular.add (a b : Bin) (ha : a.Regular) (hb : b.Regular) : (a.add b).Regular := by
  obtain ⟨ha0, ha1⟩ := ha
  obtain ⟨hb0, hb1⟩ := hb
  refine ⟨add_nonneg ha0 hb0, ?_⟩
  intro h
  have h' : a.hessSum + b.hessSum = 0 := h
  have e1 : a.hessSum = 0 := by linarith
  have e2 : b.hessSum = 0 := by linarith
  show a.gradSum + b.gradSum = 0
  rw [ha1 e1, hb1 e2, add_zero]

/-- Helper: the sums of regular bins are regular. -/
theorem Histogram.sums_regular (h : Histogram) (hr : ∀ b ∈ h, b.Regular) :
    (Histogram.sums h).Regular := by
  have key : ∀ (l : Histogram) (a : Bin), a.Regular → (∀ b ∈ l, b.Regular) →
      (l.foldl Bin.add a).Regular := by
    intro l
    induction l with
    | nil => intro a ha _; exact ha
    | cons b bs ih =>
      intro a ha hl
      exact ih (a.add b) (Bin.Regular.add a b ha (hl b (List.mem_cons_self _ _)))
        (fun c hc => hl c (List.mem_cons_of_mem _ hc))
  exact key h Bin.zero ⟨le_refl _, fun _ => rfl⟩ hr

/-- Helper: adding a regular contribution keeps the bins regular. -/
theorem Histogram.addAt_regular (h : Histogram) (i : Nat) (x : Bin) (hx : x.Regular)
    (hr : ∀ b ∈ h, b.Regular) : ∀ b ∈ h.addAt i x, b.Regular := by
  induction h generalizing i with
  | nil => intro b hb; cases hb
  | cons b0 bs ih =>
    cases i with
    | zero =>
      intro b hb
      simp only [Histogram.addAt, List.mem_cons] at hb
      rcases hb with hb | hb
      · rw [hb]
        exact Bin.Regular.add b0 x (hr b0 (List.mem_cons_self _ _)) hx
      · exact hr b (List.mem_cons_of_mem _ hb)
    | succ i =>
      intro b hb
      simp only [Histogram.addAt, List.mem_cons] at hb
      rcases hb with hb | hb
      · rw [hb]
        exact hr b0 (List.mem_cons_self _ _)
      · exact ih i (fun c hc => hr c (List.mem_cons_of_mem _ hc)) b hb

/-- Helper: a histogram built from rows with positive hessians has regular bins. -/
theorem HistogramBuilder.buildFeature_regular (b : FeatureBinning) (f node : Nat)
    (rows : List LocalRow) (hpos : ∀ r ∈ rows, 0 < r.hessian) (h : Histogram)
    (hb : HistogramBuilder.buildFeature b f node rows = Except.ok h) :
    ∀ bin ∈ h, bin.Regular := by
  have key : ∀ (l : List LocalRow) (g g' : Histogram), (∀ r ∈ l, 0 < r.hessian) →
      (∀ bin ∈ g, bin.Regular) →
      l.foldlM (HistogramBuilder.visit b f node) g = Except.ok g' →
      ∀ bin ∈ g', bin.Regular := by
    intro l
    induction l with
    | nil =>
      intro g g' _ hg hv
      cases hv
      exact hg
    | cons r rs ih =>
      intro g g' hl hg hv
      rw [List.foldlM_cons] at hv
      cases h1 : HistogramBuilder.visit b f node g r with
      | error e => rw [h1] at hv; cases hv
      | ok g1 =>
        rw [h1] at hv
        refine ih g1 g' (fun x hx => hl x (List.mem_cons_of_mem _ hx)) ?_ hv
        have hr0 : 0 < r.hessian := hl r (List.mem_cons_self _ _)
        unfold HistogramBuilder.visit at h1
        split at h1
        · cases h1
          exact hg
        · split at h1
          · cases h1
          · split at h1
            · cases h1
              refine Histogram.addAt_regular g _ _ ⟨le_of_lt hr0, fun h0 => ?_⟩ hg
              have h0' : r.hessian = 0 := h0
              linarith
            · cases h1
  refine key rows _ h hpos ?_ hb
  intro bin hbin
  rw [List.eq_of_mem_replicate hbin]
  exact ⟨le_refl _, fun _ => rfl⟩

/-- Helper: the term of a branch whose hessian sum vanishes only together with its gradient sum. -/
theorem SplitEvaluator.branchTerm_eq (reg : Regularization) (g h : ℚ) (hz : h = 0 → g = 0) :
    SplitEvaluator.branchTerm reg g h = g ^ 2 / (h + reg.lambda) := by
  unfold SplitEvaluator.branchTerm
  split
  · rename_i h0
    rw [hz h0]
    simp
  · rfl

/-- Helper: on every histogram that `HistogramBuilder` builds from rows with positive hessians the
gain of every boundary is given by the formula, the zero-hessian policy included. -/
theorem SplitEvaluator.gain_formula_of_built (reg : Regularization) (b : FeatureBinning)
    (f node : Nat) (rows : List LocalRow) (hpos : ∀ r ∈ rows, 0 < r.hessian)
    (hist : Histogram) (hb : HistogramBuilder.buildFeature b f node rows = Except.ok hist)
    (boundary : Nat) :
    SplitEvaluator.gainAt reg hist boundary
      = 1 / 2 * ((Histogram.sums (hist.take (boundary + 1))).gradSum ^ 2
            / ((Histogram.sums (hist.take (boundary + 1))).hessSum + reg.lambda)
          + (Histogram.sums (hist.drop (boundary + 1))).gradSum ^ 2
            / ((Histogram.sums (hist.drop (boundary + 1))).hessSum + reg.lambda)
          - (Histogram.sums hist).gradSum ^ 2
            / ((Histogram.sums hist).hessSum + reg.lambda))
        - reg.gamma := by
  have hreg := HistogramBuilder.buildFeature_regular b f node rows hpos hist hb
  have hL := (Histogram.sums_regular (hist.take (boundary + 1))
    (fun x hx => hreg x (List.mem_of_mem_take hx))).2
  have hR := (Histogram.sums_regular (hist.drop (boundary + 1))
    (fun x hx => hreg x (List.mem_of_mem_drop hx))).2
  unfold SplitEvaluator.gainAt
  simp only [SplitEvaluator.branchTerm_eq reg _ _ hL, SplitEvaluator.branchTerm_eq reg _ _ hR]

/-- Helper: for a histogram and boundary in which a branch with zero hessian sum also has zero
gradient sum, the gain of the boundary is given by the formula (a quotient with denominator
zero reads as zero), the sums of the node are those of the two branches, a split that
`evaluate` returns has a gain above `minGain`, and the example of the specification evaluates
to the gain `-4/3` and to a Leaf decision at `minGain = 0`. -/
theorem SplitEvaluator.gain_formula_of_regular_branches (cfg : SplitConfig) (hist : Histogram) (boundary : Nat)
    (hL : (Histogram.sums (hist.take (boundary + 1))).hessSum = 0 →
      (Histogram.sums (hist.take (boundary + 1))).gradSum = 0)
    (hR : (Histogram.sums (hist.drop (boundary + 1))).hessSum = 0 →
      (Histogram.sums (hist.drop (boundary + 1))).gradSum = 0) :
    SplitEvaluator.gainAt cfg.reg hist boundary
      = 1 / 2 * ((Histogram.sums (hist.take (boundary + 1))).gradSum ^ 2
            / ((Histogram.sums (hist.take (boundary + 1))).hessSum + cfg.reg.lambda)
          + (Histogram.sums (hist.drop (boundary + 1))).gradSum ^ 2
            / ((Histogram.sums (hist.drop (boundary + 1))).hessSum + cfg.reg.lambda)
          - (Histogram.sums hist).gradSum ^ 2
            / ((Histogram.sums hist).hessSum + cfg.reg.lambda))
        - cfg.reg.gamma
    ∧ (Histogram.sums hist).gradSum
        = (Histogram.sums (hist.take (boundary + 1))).gradSum
          + (Histogram.sums (hist.drop (boundary + 1))).gradSum
    ∧ (Histogram.sums hist).hessSum
        = (Histogram.sums (hist.take (boundary + 1))).hessSum
          + (Histogram.sums (hist.drop (boundary + 1))).hessSum
    ∧ (∀ g : ℚ, SplitEvaluator.branchTerm cfg.reg g 0 = 0)
    ∧ (∀ (depth : Nat) (hists : List Histogram) (f b : Nat),
        SplitEvaluator.evaluate cfg depth hists = SplitDecision.split f b →
          ∃ h : Histogram, hists[f]? = some h ∧ b + 1 < h.length
            ∧ SplitEvaluator.gainAt cfg.reg h b > cfg.minGain)
    ∧ (∀ nL nR : Nat, SplitEvaluator.gainAt { lambda := 1, gamma := 0 }
        [{ gradSum := 6, hessSum := 2, count := nL }, { gradSum := 4, hessSum := 2, count := nR }]
        0 = -4 / 3)
    ∧ ∀ (minSamplesPerNode maxTreeDepth depth nL nR : Nat),
        SplitEvaluator.evaluate
          { reg := { lambda := 1, gamma := 0 }, minGain := 0,
            minSamplesPerNode := minSamplesPerNode, maxTreeDepth := maxTreeDepth } depth
          [[{ gradSum := 6, hessSum := 2, count := nL },
            { gradSum := 4, hessSum := 2, count := nR }]]
          = SplitDecision.leaf (-2) := by
  refine ⟨?_, ?_, ?_, ?_, ?_, ?_, ?_⟩
  · unfold SplitEvaluator.gainAt
    simp only [SplitEvaluator.branchTerm_eq cfg.reg _ _ hL,
      SplitEvaluator.branchTerm_eq cfg.reg _ _ hR]
  · rw [Histogram.sums_take_drop hist (boundary + 1)]
    rfl
  · rw [Histogram.sums_take_drop hist (boundary + 1)]
    rfl
  · intro g
    simp [SplitEvaluator.branchTerm]
  · intro depth hists f b he
    unfold SplitEvaluator.evaluate at he
    simp only at he
    split at he
    · cases he
    · split at he
      · cases he
      · rename_i c hc
        split at he
        · rename_i hg
          cases he
          obtain ⟨k, h, e1, e2, e3, e4⟩ :=
            SplitEvaluator.mem_candidatesFrom cfg.reg hists 0 c (SplitEvaluator.best_mem _ c hc)
          have hk : c.1 = k := by omega
          rw [hk]
          exact ⟨h, e1, e3, by rw [← e4]; exact hg⟩
        · cases he
  · intro nL nR
    norm_num [SplitEvaluator.gainAt, SplitEvaluator.branchTerm, Histogram.sums, Bin.add, Bin.zero]
  · intro minS maxD depth nL nR
    have hr : List.range 1 = [0] := rfl
    by_cases hc : nL + nR < minS ∨ maxD ≤ depth
    · simp [SplitEvaluator.evaluate, SplitEvaluator.nodeTotals, Histogram.sums, Bin.add,
        Bin.zero, hc, SplitEvaluator.leafValue]
      norm_num
    · simp [SplitEvaluator.evaluate, SplitEvaluator.nodeTotals, SplitEvaluator.best,
        SplitEvaluator.candidates, SplitEvaluator.candidatesFrom, SplitEvaluator.featureCandidates,
        hr, SplitEvaluator.gainAt, Histogram.sums, Bin.add, Bin.zero,
        SplitEvaluator.branchTerm, hc, SplitEvaluator.leafValue]
      norm_num

/-- Helper: an element of a `zipWith` comes from two elements of the lists. -/
theorem mem_zipWith_parts {α β γ : Type} (f : α → β → γ) :
    ∀ (l1 : List α) (l2 : List β) (c : γ), c ∈ List.zipWith f l1 l2 →
      ∃ a ∈ l1, ∃ b ∈ l2, c = f a b := by
  intro l1
  induction l1 with
  | nil => intro l2 c h; simp at h
  | cons a as ih =>
    intro l2 c h
    cases l2 with
    | nil => simp at h
    | cons b bs =>
      simp only [List.zipWith_cons_cons, List.mem_cons] at h
      rcases h with h | h
      · exact ⟨a, List.mem_cons_self _ _, b, List.mem_cons_self _ _, h⟩
      · obtain ⟨a', ha', b', hb', e⟩ := ih bs c h
        exact ⟨a', List.mem_cons_of_mem _ ha', b', List.mem_cons_of_mem _ hb', e⟩

/-- Helper: the histograms built for all features from rows with positive hessians have
regular bins. -/
theorem HistogramBuilder.buildFrom_regular (node : Nat) (rows : List LocalRow)
    (hpos : ∀ r ∈ rows, 0 < r.hessian) :
    ∀ (l : List FeatureBinning) (f : Nat) (hs : List Histogram),
      HistogramBuilder.buildFrom node rows f l = Except.ok hs →
      ∀ h ∈ hs, ∀ bin ∈ h, bin.Regular := by
  intro l
  induction l with
  | nil =>
    intro f hs e h hh
    cases e
    cases hh
  | cons p ps ih =>
    intro f hs e
    unfold HistogramBuilder.buildFrom at e
    cases a1 : HistogramBuilder.buildFeature p f node rows with
    | error err => rw [a1] at e; cases e
    | ok g1 =>
      rw [a1] at e
      cases t1 : HistogramBuilder.buildFrom node rows (f + 1) ps with
      | error err => rw [t1] at e; cases e
      | ok k1 =>
        rw [t1] at e
        cases e
        intro h hh
        rw [List.mem_cons] at hh
        rcases hh with hh | hh
        · rw [hh]
          exact HistogramBuilder.buildFeature_regular p f node rows hpos g1 a1
        · exact ih (f + 1) k1 t1 h hh

/-- Helper: the aggregated histograms of a node have regular bins. -/
theorem AggregatedHistograms.regular (binning : List FeatureBinning) (node : Nat)
    (hists : List Histogram) (hagg : AggregatedHistograms binning node hists) :
    ∀ h ∈ hists, ∀ bin ∈ h, bin.Regular := by
  induction hagg with
  | built rows hs hpos hb =>
    exact HistogramBuilder.buildFrom_regular node rows hpos binning 0 hs hb
  | aggregate hs1 hs2 _ _ ih1 ih2 =>
    intro h hh bin hbin
    obtain ⟨h1, hh1, h2, hh2, rfl⟩ := mem_zipWith_parts Histogram.aggregate hs1 hs2 h hh
    obtain ⟨b1, hb1, b2, hb2, rfl⟩ := mem_zipWith_parts Bin.add h1 h2 bin hbin
    exact Bin.Regular.add b1 b2 (ih1 h1 hh1 b1 hb1) (ih2 h2 hh2 b2 hb2)

/-- C3: for every node's aggregated histograms (built by `HistogramBuilder` from rows under the
square loss and aggregated element-wise) and regularization constants lambda and gamma, the
gain of every boundary of every feature, and so the gain of every candidate that `evaluate`
considers, equals `0.5 * (G_L^2/(H_L+lambda) + G_R^2/(H_R+lambda) - G^2/(H+lambda)) - gamma`
over exact rationals, where `G = G_L + G_R` and `H = H_L + H_R`; a split that `evaluate` returns
has a gain above `minGain`; for G_L = 6, H_L = 2, G_R = 4, H_R = 2, lambda = 1, gamma = 0 the
gain is `-4/3`, and an evaluator configured with `minGain = 0` returns a Leaf decision for that
node. -/
theorem SplitEvaluator.gain_formula_on_aggregated (cfg : SplitConfig)
    (binning : List FeatureBinning) (node : Nat) (hists : List Histogram)
    (hagg : AggregatedHistograms binning node hists) :
    (∀ (f : Nat) (hist : Histogram) (boundary : Nat), hists[f]? = some hist →
      SplitEvaluator.gainAt cfg.reg hist boundary
        = 1 / 2 * ((Histogram.sums (hist.take (boundary + 1))).gradSum ^ 2
              / ((Histogram.sums (hist.take (boundary + 1))).hessSum + cfg.reg.lambda)
            + (Histogram.sums (hist.drop (boundary + 1))).gradSum ^ 2
              / ((Histogram.sums (hist.drop (boundary + 1))).hessSum + cfg.reg.lambda)
            - (Histogram.sums hist).gradSum ^ 2
              / ((Histogram.sums hist).hessSum + cfg.reg.lambda))
          - cfg.reg.gamma
      ∧ (Histogram.sums hist).gradSum
          = (Histogram.sums (hist.take (boundary + 1))).gradSum
            + (Histogram.sums (hist.drop (boundary + 1))).gradSum
      ∧ (Histogram.sums hist).hessSum
          = (Histogram.sums (hist.take (boundary + 1))).hessSum
            + (Histogram.sums (hist.drop (boundary + 1))).hessSum)
    ∧ (∀ c ∈ SplitEvaluator.candidates cfg.reg hists,
        ∃ hist : Histogram, hists[c.1]? = some hist ∧ c.2.1 + 1 < hist.length
          ∧ c.2.2 = SplitEvaluator.gainAt cfg.reg hist c.2.1)
    ∧ (∀ (depth f b : Nat),
        SplitEvaluator.evaluate cfg depth hists = SplitDecision.split f b →
          ∃ h : Histogram, hists[f]? = some h ∧ b + 1 < h.length
            ∧ SplitEvaluator.gainAt cfg.reg h b > cfg.minGain)
    ∧ (∀ nL nR : Nat, SplitEvaluator.gainAt { lambda := 1, gamma := 0 }
        [{ gradSum := 6, hessSum := 2, count := nL }, { gradSum := 4, hessSum := 2, count := nR }]
        0 = -4 / 3)
    ∧ ∀ (minSamplesPerNode maxTreeDepth depth nL nR : Nat),
        SplitEvaluator.evaluate
          { reg := { lambda := 1, gamma := 0 }, minGain := 0,
            minSamplesPerNode := minSamplesPerNode, maxTreeDepth := maxTreeDepth } depth
          [[{ gradSum := 6, hessSum := 2, count := nL },
            { gradSum := 4, hessSum := 2, count := nR }]]
          = SplitDecision.leaf (-2) := by
  have hreg := AggregatedHistograms.regular binning node hists hagg
  refine ⟨?_, ?_, ?_, ?_, ?_⟩
  · intro f hist boundary hf
    have hmem : hist ∈ hists := List.getElem?_mem hf
    have hbins := hreg hist hmem
    have hL := (Histogram.sums_regular (hist.take (boundary + 1))
      (fun x hx => hbins x (List.mem_of_mem_take hx))).2
    have hR := (Histogram.sums_regular (hist.drop (boundary + 1))
      (fun x hx => hbins x (List.mem_of_mem_drop hx))).2
    have h := SplitEvaluator.gain_formula_of_regular_branches cfg hist boundary hL hR
    exact ⟨h.1, h.2.1, h.2.2.1⟩
  · intro c hc
    obtain ⟨k, hist, e1, e2, e3, e4⟩ := SplitEvaluator.mem_candidatesFrom cfg.reg hists 0 c hc
    have hk : c.1 = k := by omega
    rw [hk]
    exact ⟨hist, e1, e3, e4⟩
  · intro depth f b he
    exact (SplitEvaluator.gain_formula_of_regular_branches cfg [] 0
      (fun _ => rfl) (fun _ => rfl)).2.2.2.2.1 depth hists f b he
  · exact (SplitEvaluator.gain_formula_of_regular_branches cfg [] 0
      (fun _ => rfl) (fun _ => rfl)).2.2.2.2.2.1
  · exact (SplitEvaluator.gain_formula_of_regular_branches cfg [] 0
      (fun _ => rfl) (fun _ => rfl)).2.2.2.2.2.2

/-- Witness for C3: the aggregate of the histograms that two workers build from one row each,
which is the example of the specification (G_L = 6, H_L = 2, G_R = 4, H_R = 2). -/
theorem SplitEvaluator.gain_formula_on_aggregated_witness :
    AggregatedHistograms sampleBinning 0
      (aggregateAll [[{ gradSum := 6, hessSum := 2, count := 1 }, Bin.zero]]
        [[Bin.zero, { gradSum := 4, hessSum := 2, count := 1 }]])
    ∧ aggregateAll [[{ gradSum := 6, hessSum := 2, count := 1 }, Bin.zero]]
        [[Bin.zero, { gradSum := 4, hessSum := 2, count := 1 }]]
      = [[{ gradSum := 6, hessSum := 2, count := 1 }, { gradSum := 4, hessSum := 2, count := 1 }]]
    ∧ SplitEvaluator.gainAt sampleConfig.reg
        [{ gradSum := 6, hessSum := 2, count := 1 }, { gradSum := 4, hessSum := 2, count := 1 }] 0
      = 1 / 2 * ((6 : ℚ) ^ 2 / (2 + 1) + 4 ^ 2 / (2 + 1) - 10 ^ 2 / (4 + 1)) - 0
    ∧ SplitEvaluator.evaluate sampleConfig 0
        [[{ gradSum := 6, hessSum := 2, count := 1 }, { gradSum := 4, hessSum := 2, count := 1 }]]
      = SplitDecision.leaf (-2) :=
  have h1 : HistogramBuilder.build sampleBinning 0 [sampleRowA]
      = Except.ok [[{ gradSum := 6, hessSum := 2, count := 1 }, Bin.zero]] := by
    simp [HistogramBuilder.build, HistogramBuilder.buildFrom, sampleBinning,
      HistogramBuilder.buildFeature, HistogramBuilder.visit, sampleRowA, Histogram.addAt,
      Bin.add, Bin.zero, List.replicate]
    rfl
  have h2 : HistogramBuilder.build sampleBinning 0 [sampleRowB]
      = Except.ok [[Bin.zero, { gradSum := 4, hessSum := 2, count := 1 }]] := by
    simp [HistogramBuilder.build, HistogramBuilder.buildFrom, sampleBinning,
      HistogramBuilder.buildFeature, HistogramBuilder.visit, sampleRowB, Histogram.addAt,
      Bin.add, Bin.zero, List.replicate]
    rfl
  have hagg : AggregatedHistograms sampleBinning 0
      (aggregateAll [[{ gradSum := 6, hessSum := 2, count := 1 }, Bin.zero]]
        [[Bin.zero, { gradSum := 4, hessSum := 2, count := 1 }]]) :=
    AggregatedHistograms.aggregate _ _
      (AggregatedHistograms.built [sampleRowA] _ (by simp [sampleRowA]) h1)
      (AggregatedHistograms.built [sampleRowB] _ (by simp [sampleRowB]) h2)
  have hval : aggregateAll [[{ gradSum := 6, hessSum := 2, count := 1 }, Bin.zero]]
        [[Bin.zero, { gradSum := 4, hessSum := 2, count := 1 }]]
      = [[{ gradSum := 6, hessSum := 2, count := 1 },
          { gradSum := 4, hessSum := 2, count := 1 }]] := by
    simp [aggregateAll, Histogram.aggregate, Bin.add, Bin.zero]
  have h := SplitEvaluator.gain_formula_on_aggregated sampleConfig sampleBinning 0 _ hagg
  have hg := (h.1 0
    [{ gradSum := 6, hessSum := 2, count := 1 }, { gradSum := 4, hessSum := 2, count := 1 }] 0
    (by rw [hval]; rfl)).1
  ⟨hagg, hval,
    hg.trans (by norm_num [Histogram.sums, Bin.add, Bin.zero, sampleConfig]),
    h.2.2.2.2 1 10 0 1 1⟩

/-- C4: whenever `evaluate` declares a node a Leaf, the leaf value is `-G/(H+lambda)` for the
gradient sum `G` and hessian sum `H` of the node (no learning rate applied); for G = 10, H = 4,
lambda = 1 the leaf value is exactly `-2`. -/
theorem SplitEvaluator.leaf_value_formula (cfg : SplitConfig) (depth : Nat)
    (hists : List Histogram) (v : ℚ)
    (hleaf : SplitEvaluator.evaluate cfg depth hists = SplitDecision.leaf v) :
    v = -((SplitEvaluator.nodeTotals hists).gradSum
          / ((SplitEvaluator.nodeTotals hists).hessSum + cfg.reg.lambda))
    ∧ (∀ (gamma : ℚ) (n : Nat),
        SplitEvaluator.leafValue { lambda := 1, gamma := gamma }
          { gradSum := 10, hessSum := 4, count := n } = -2) := by
  refine ⟨?_, ?_⟩
  · unfold SplitEvaluator.evaluate at hleaf
    simp only at hleaf
    split at hleaf
    · cases hleaf; rfl
    · split at hleaf
      · cases hleaf; rfl
      · split at hleaf
        · cases hleaf
        · cases hleaf; rfl
  · intro gamma n
    norm_num [SplitEvaluator.leafValue]

/-- Witness for C4: the example of the specification, a node with G = 10 and H = 4. -/
theorem SplitEvaluator.leaf_value_formula_witness :
    SplitEvaluator.evaluate sampleConfig 0
        [[{ gradSum := 6, hessSum := 2, count := 1 }, { gradSum := 4, hessSum := 2, count := 1 }]]
      = SplitDecision.leaf (-2)
    ∧ SplitEvaluator.nodeTotals
        [[{ gradSum := 6, hessSum := 2, count := 1 }, { gradSum := 4, hessSum := 2, count := 1 }]]
      = { gradSum := 10, hessSum := 4, count := 2 }
    ∧ (-2 : ℚ) = -((SplitEvaluator.nodeTotals
        [[{ gradSum := 6, hessSum := 2, count := 1 },
          { gradSum := 4, hessSum := 2, count := 1 }]]).gradSum
          / ((SplitEvaluator.nodeTotals
            [[{ gradSum := 6, hessSum := 2, count := 1 },
              { gradSum := 4, hessSum := 2, count := 1 }]]).hessSum + sampleConfig.reg.lambda)) :=
  have he : SplitEvaluator.evaluate sampleConfig 0
        [[{ gradSum := 6, hessSum := 2, count := 1 }, { gradSum := 4, hessSum := 2, count := 1 }]]
      = SplitDecision.leaf (-2) := by
    have hr : List.range 1 = [0] := rfl
    simp [SplitEvaluator.evaluate, SplitEvaluator.nodeTotals, SplitEvaluator.best,
      SplitEvaluator.candidates, SplitEvaluator.candidatesFrom, SplitEvaluator.featureCandidates,
      hr, SplitEvaluator.gainAt, Histogram.sums, Bin.add, Bin.zero,
      SplitEvaluator.branchTerm, SplitEvaluator.leafValue, sampleConfig]
    norm_num
  ⟨he, by norm_num [SplitEvaluator.nodeTotals, Histogram.sums, Bin.add, Bin.zero],
    (SplitEvaluator.leaf_value_formula sampleConfig 0 _ (-2) he).1⟩

/-- Helper: the sum of contributions after one more contribution. -/
theorem sumContributions_snoc (cs : List (List Histogram)) (c : List Histogram) :
    sumContributions (cs ++ [c])
      = if cs = [] then c else aggregateAll (sumContributions cs) c := by
  cases cs with
  | nil => rfl
  | cons c0 cs =>
    simp [sumContributions, List.foldl_append]

/-- Helper: a run followed by one more operation. -/
theorem PartialResultStore.run_snoc (s : PartialResultStore) (ops : List StoreOp) (op : StoreOp) :
    s.run (ops ++ [op]) = s.run ops >>= fun s1 => s1.step op := by
  unfold PartialResultStore.run
  rw [List.foldlM_append]
  congr 1
  funext s1
  simp [List.foldlM_cons, List.foldlM_nil]

/-- Helper: what an accepted contribution did. -/
theorem PartialResultStore.contribute_ok (s s' : PartialResultStore) (t : Tag) (w : Nat)
    (hists : List Histogram) (h : s.contribute t w hists = Except.ok s') :
    ∃ (arrived : List Nat) (aggregate : List Histogram),
      s.state t = TagState.accumulating arrived aggregate ∧ w < s.numWorkers ∧ w ∉ arrived
        ∧ s'.numWorkers = s.numWorkers
        ∧ s'.state = Function.update s.state t
            (TagState.accumulating (arrived ++ [w])
              (if arrived = [] then hists else aggregateAll aggregate hists)) := by
  unfold PartialResultStore.contribute at h
  cases hst : s.state t with
  | consumed => rw [hst] at h; cases h
  | accumulating arrived aggregate =>
    rw [hst] at h
    simp only at h
    by_cases h1 : s.numWorkers ≤ w
    · rw [if_pos h1] at h; cases h
    · rw [if_neg h1] at h
      by_cases h2 : w ∈ arrived
      · rw [if_pos h2] at h; cases h
      · rw [if_neg h2] at h
        cases h
        exact ⟨arrived, aggregate, rfl, by omega, h2, rfl, rfl⟩

/-- Helper: what a successful finalize did. -/
theorem PartialResultStore.finalize_ok (s : PartialResultStore) (t : Tag)
    (r : List Histogram × PartialResultStore) (h : s.finalize t = Except.ok r) :
    ∃ (arrived : List Nat),
      s.state t = TagState.accumulating arrived r.1 ∧ ¬ arrived.length < s.numWorkers
        ∧ r.2.numWorkers = s.numWorkers
        ∧ r.2.state = Function.update s.state t TagState.consumed := by
  unfold PartialResultStore.finalize at h
  cases hst : s.state t with
  | consumed => rw [hst] at h; cases h
  | accumulating arrived aggregate =>
    rw [hst] at h
    simp only at h
    by_cases h1 : arrived.length < s.numWorkers
    · rw [if_pos h1] at h; cases h
    · rw [if_neg h1] at h
      cases h
      exact ⟨arrived, rfl, h1, rfl, rfl⟩

/-- Helper: `finalizedIn` after one more operation. -/
theorem finalizedIn_snoc (tag : Tag) (ops : List StoreOp) (op : StoreOp) :
    finalizedIn tag (ops ++ [op]) = (finalizedIn tag ops || decide (op = StoreOp.finalize tag)) := by
  simp [finalizedIn]

/-- Helper: `contributionsFor` after one more operation. -/
theorem contributionsFor_snoc (tag : Tag) (ops : List StoreOp) (op : StoreOp) :
    contributionsFor tag (ops ++ [op])
      = contributionsFor tag ops ++ (match StoreOp.contributionFor tag op with
          | some c => [c]
          | none => []) := by
  unfold contributionsFor
  rw [List.filterMap_append]
  congr 1
  cases h : StoreOp.contributionFor tag op <;> simp [List.filterMap, h]

/-- Helper: a list of distinct numbers below `n` has at most `n` entries. -/
theorem List.length_le_of_nodup_of_lt (l : List Nat) (n : Nat) (hd : l.Nodup)
    (hl : ∀ w ∈ l, w < n) : l.length ≤ n := by
  have hsub : l ⊆ List.range n := fun w hw => List.mem_range.2 (hl w hw)
  have := (List.subperm_of_subset hd hsub).length_le
  simpa using this

/-- Helper: the state of a tag after a successful run from the initial store. -/
theorem PartialResultStore.run_invariant (n : Nat) (tag : Tag) (ops : List StoreOp) :
    ∀ s : PartialResultStore, (PartialResultStore.init n).run ops = Except.ok s →
      s.numWorkers = n ∧ (contributionsFor tag ops).length ≤ n
      ∧ (finalizedIn tag ops = true → s.state tag = TagState.consumed)
      ∧ (finalizedIn tag ops = false → ∃ arrived : List Nat,
          s.state tag = TagState.accumulating arrived (sumContributions (contributionsFor tag ops))
            ∧ arrived.length = (contributionsFor tag ops).length
            ∧ arrived.Nodup ∧ ∀ w ∈ arrived, w < n) := by
  induction ops using List.reverseRecOn with
  | nil =>
    intro s h
    cases h
    refine ⟨rfl, Nat.zero_le _, ?_, fun _ => ⟨[], rfl, rfl, List.nodup_nil, ?_⟩⟩
    · intro hf
      cases hf
    · intro w hw
      cases hw
  | append_singleton ops op ih =>
    intro s' h
    rw [PartialResultStore.run_snoc] at h
    cases hs : (PartialResultStore.init n).run ops with
    | error e => rw [hs] at h; cases h
    | ok s =>
      rw [hs] at h
      obtain ⟨hn, hle, hfin, hacc⟩ := ih s hs
      have hstep : s.step op = Except.ok s' := h
      rw [finalizedIn_snoc, contributionsFor_snoc]
      cases op with
      | contribute t w hists =>
        obtain ⟨arrived, aggregate, e1, e2, e3, e4, e5⟩ :=
          PartialResultStore.contribute_ok s s' t w hists hstep
        have hdec : decide (StoreOp.contribute t w hists = StoreOp.finalize tag) = false := by
          simp
        rw [hdec, Bool.or_false]
        by_cases ht : t = tag
        · subst ht
          have hcf : StoreOp.contributionFor t (StoreOp.contribute t w hists) = some hists := by
            simp [StoreOp.contributionFor]
          rw [hcf]
          dsimp only
          have hnf : finalizedIn t ops = false := by
            cases hf : finalizedIn t ops with
            | false => rfl
            | true => rw [hfin hf] at e1; cases e1
          obtain ⟨arr, a1, a2, a3, a4⟩ := hacc hnf
          rw [a1] at e1
          cases e1
          have hnd : (arrived ++ [w]).Nodup := by
            rw [List.nodup_append]
            refine ⟨a3, List.nodup_singleton w, ?_⟩
            intro x hx hx'
            rw [List.mem_singleton] at hx'
            subst hx'
            exact e3 hx
          have hlt : ∀ x ∈ arrived ++ [w], x < n := by
            intro x hx
            rw [List.mem_append, List.mem_singleton] at hx
            rcases hx with hx | hx
            · exact a4 x hx
            · subst hx; omega
          have hlen : (arrived ++ [w]).length
              = (contributionsFor t ops ++ [hists]).length := by
            simp [a2]
          refine ⟨e4.trans hn, ?_, ?_, fun _ => ?_⟩
          · rw [← hlen]
            exact List.length_le_of_nodup_of_lt _ n hnd hlt
          · intro hf
            rw [hnf] at hf
            cases hf
          · refine ⟨arrived ++ [w], ?_, hlen, hnd, hlt⟩
            rw [e5, Function.update_same, sumContributions_snoc]
            have hiff : arrived = [] ↔ contributionsFor t ops = [] := by
              rw [← List.length_eq_zero, ← List.length_eq_zero (l := contributionsFor t ops), a2]
            by_cases hem : arrived = []
            · rw [if_pos hem, if_pos (hiff.1 hem)]
            · rw [if_neg hem, if_neg (fun hc => hem (hiff.2 hc))]
        · have hcf : StoreOp.contributionFor tag (StoreOp.contribute t w hists) = none := by
            simp [StoreOp.contributionFor, ht]
          have hst : s'.state tag = s.state tag := by
            rw [e5, Function.update_noteq (fun hc => ht hc.symm)]
          rw [hcf, hst]
          dsimp only
          rw [List.append_nil]
          exact ⟨e4.trans hn, hle, hfin, hacc⟩
      | finalize t =>
        have hcf : StoreOp.contributionFor tag (StoreOp.finalize t) = none := rfl
        rw [hcf]
        dsimp only
        rw [List.append_nil]
        cases hr : s.finalize t with
        | error e =>
          simp [PartialResultStore.step, hr, Except.map] at hstep
        | ok r =>
          have hs' : s' = r.2 := by
            simp [PartialResultStore.step, hr, Except.map] at hstep
            exact hstep.symm
          obtain ⟨arrived, e1, e2, e3, e4⟩ := PartialResultStore.finalize_ok s t r hr
          subst hs'
          by_cases ht : t = tag
          · subst ht
            have hdec : decide (StoreOp.finalize t = StoreOp.finalize t) = true := by simp
            rw [hdec, Bool.or_true]
            refine ⟨e3.trans hn, hle, fun _ => ?_, ?_⟩
            · rw [e4, Function.update_same]
            · intro hf
              cases hf
          · have hdec : decide (StoreOp.finalize t = StoreOp.finalize tag) = false := by
              simp [ht]
            have hst : r.2.state tag = s.state tag := by
              rw [e4, Function.update_noteq (fun hc => ht hc.symm)]
            rw [hdec, Bool.or_false, hst]
            exact ⟨e3.trans hn, hle, hfin, hacc⟩

/-- C6: after any successful run of contributions and finalizations from the initial store for
`n` workers, for every tag: at most `n` contributions for the tag were accepted; if the tag was
not finalized and fewer than `n` contributions for it arrived, `finalize(tag)` fails with the
incomplete-aggregation error; if it was not finalized and all `n` arrived, `finalize(tag)`
returns the element-wise sum of the contributions, and a further `finalize(tag)` fails with the
stale-result error; if the tag was finalized at any earlier point, `finalize(tag)` fails with
the stale-result error. -/
theorem PartialResultStore.finalize_protocol (n : Nat) (tag : Tag) (ops : List StoreOp)
    (s : PartialResultStore) (hrun : (PartialResultStore.init n).run ops = Except.ok s) :
    (contributionsFor tag ops).length ≤ n
    ∧ (finalizedIn tag ops = false → (contributionsFor tag ops).length < n →
        s.finalize tag = Except.error GbtError.incompleteAggregation)
    ∧ (finalizedIn tag ops = false → (contributionsFor tag ops).length = n →
        ∃ s' : PartialResultStore,
          s.finalize tag = Except.ok (sumContributions (contributionsFor tag ops), s')
            ∧ (PartialResultStore.init n).run (ops ++ [StoreOp.finalize tag]) = Except.ok s'
            ∧ s'.finalize tag = Except.error GbtError.staleResult)
    ∧ (finalizedIn tag ops = true → s.finalize tag = Except.error GbtError.staleResult) := by
  obtain ⟨hn, hle, hfin, hacc⟩ := PartialResultStore.run_invariant n tag ops s hrun
  refine ⟨hle, ?_, ?_, ?_⟩
  · intro hf hlt
    obtain ⟨arrived, a1, a2, -, -⟩ := hacc hf
    unfold PartialResultStore.finalize
    rw [a1]
    simp only
    rw [if_pos (by omega)]
    rfl
  · intro hf heq
    obtain ⟨arrived, a1, a2, -, -⟩ := hacc hf
    have hfinal : s.finalize tag = Except.ok (sumContributions (contributionsFor tag ops),
        { s with state := Function.update s.state tag TagState.consumed }) := by
      unfold PartialResultStore.finalize
      rw [a1]
      simp only
      rw [if_neg (by omega)]
      rfl
    refine ⟨_, hfinal, ?_, ?_⟩
    · rw [PartialResultStore.run_snoc, hrun]
      show (s.finalize tag).map (fun r => r.2) = _
      rw [hfinal]
      rfl
    · unfold PartialResultStore.finalize
      simp only [Function.update_same]
      rfl
  · intro hf
    unfold PartialResultStore.finalize
    rw [hfin hf]
    rfl

/-- Witness for C6: two workers, both contributions arrived. -/
theorem PartialResultStore.finalize_protocol_witness :
    (PartialResultStore.init 2).run sampleOps = Except.ok sampleStore
    ∧ finalizedIn sampleTag sampleOps = false
    ∧ (contributionsFor sampleTag sampleOps).length = 2
    ∧ ∃ s' : PartialResultStore,
        sampleStore.finalize sampleTag
          = Except.ok (sumContributions (contributionsFor sampleTag sampleOps), s')
        ∧ (PartialResultStore.init 2).run (sampleOps ++ [StoreOp.finalize sampleTag])
            = Except.ok s'
        ∧ s'.finalize sampleTag = Except.error GbtError.staleResult :=
  have hrun : (PartialResultStore.init 2).run sampleOps = Except.ok sampleStore := rfl
  have hf : finalizedIn sampleTag sampleOps = false := by decide
  have hl : (contributionsFor sampleTag sampleOps).length = 2 := by decide
  ⟨hrun, hf, hl,
    (PartialResultStore.finalize_protocol 2 sampleTag sampleOps sampleStore hrun).2.2.1 hf hl⟩

end daal.algorithms.gbt.regression.training

namespace oneapi.dal.test.engine.linalg


/-- Helper: `transpose_layout` applied twice is the identity. -/
theorem transpose_layout_involutive (l : layout) : transpose_layout (transpose_layout l) = l := by
  cases l <;> rfl

/-- Helper: `transpose_layout` changes the layout. -/
theorem transpose_layout_ne (l : layout) : transpose_layout l ≠ l := by
  cases l <;> decide

/-- Helper: the linear index of `(j, i)` in the view with the transposed layout, the swapped
shape and the same stride is the linear index of `(i, j)` in the matrix, or both are refused. -/
theorem matrix.get_linear_index_transposed {α : Type} (m : matrix α) (i j : Int) :
    matrix_base.get_linear_index
        { lyt := transpose_layout m.lyt,
          shape_ := { shape_0 := m.shape_.shape_1, shape_1 := m.shape_.shape_0 },
          stride_ := m.stride_ } j i
      = m.get_linear_index i j := by
  unfold matrix_base.get_linear_index
  simp only [ONEDAL_ASSERT_bind]
  by_cases hi : i ≥ 0 ∧ i < m.get_row_count
  · by_cases hj : j ≥ 0 ∧ j < m.get_column_count
    · have hi' : i ≥ 0 ∧ i < matrix_base.get_column_count
          { lyt := transpose_layout m.lyt,
            shape_ := { shape_0 := m.shape_.shape_1, shape_1 := m.shape_.shape_0 },
            stride_ := m.stride_ } := hi
      have hj' : j ≥ 0 ∧ j < matrix_base.get_row_count
          { lyt := transpose_layout m.lyt,
            shape_ := { shape_0 := m.shape_.shape_1, shape_1 := m.shape_.shape_0 },
            stride_ := m.stride_ } := hj
      rw [if_pos hi, if_pos hj, if_pos hj', if_pos hi']
      cases hl : m.lyt <;> rfl
    · have hj' : ¬ (j ≥ 0 ∧ j < matrix_base.get_row_count
          { lyt := transpose_layout m.lyt,
            shape_ := { shape_0 := m.shape_.shape_1, shape_1 := m.shape_.shape_0 },
            stride_ := m.stride_ }) := hj
      rw [if_pos hi, if_neg hj, if_neg hj']
  · have hi' : ¬ (i ≥ 0 ∧ i < matrix_base.get_column_count
          { lyt := transpose_layout m.lyt,
            shape_ := { shape_0 := m.shape_.shape_1, shape_1 := m.shape_.shape_0 },
            stride_ := m.stride_ }) := hi
    rw [if_neg hi, if_neg hi']
    split <;> rfl

/-- Helper: `sampleMatrix` is the transposed view of a wrapped array. -/
theorem sampleMatrix_reachable : matrix.Reachable sampleMatrix :=
  matrix.Reachable.t
    ({ lyt := layout.row_major, shape_ := { shape_0 := 2, shape_1 := 3 }, stride_ := 3,
       x_ := [1, 2, 3, 4, 5, 6] } : matrix Int)
    sampleMatrix
    (matrix.Reachable.wrap_shape layout.row_major ([1, 2, 3, 4, 5, 6] : List Int) 2 3
      { shape_0 := 2, shape_1 := 3 } _ (by decide) (by decide))
    (by decide)

/-- C11: for every matrix `m` reachable through the public factories and `t()`, `m.t()` is
returned; it has the shape `m.get_shape().t()`, the opposite layout, the same stride and the
same array; `m.t().get_linear_index(j, i) = m.get_linear_index(i, j)` and
`m.t().get(j, i) = m.get(i, j)` for all `(i, j)` (for in-range `(i, j)` both are returned);
`transpose_layout` is an involution; and `m.t().t()` is returned with the layout, shape, stride,
array and element values of `m`. -/
theorem matrix.t_is_transposed_view {α : Type} [Zero α] [One α] (m : matrix α)
    (h : matrix.Reachable m) :
    ∃ mt : matrix α, m.t = some mt
      ∧ m.get_shape.t = some mt.get_shape
      ∧ mt.get_layout = transpose_layout m.get_layout
      ∧ mt.get_layout ≠ m.get_layout
      ∧ mt.get_stride = m.get_stride
      ∧ mt.get_array = m.get_array
      ∧ (∀ i j : Int, mt.get_linear_index j i = m.get_linear_index i j)
      ∧ (∀ i j : Int, mt.get j i = m.get i j)
      ∧ (∀ i j : Int, 0 ≤ i → i < m.get_row_count → 0 ≤ j → j < m.get_column_count →
          ∃ (lin : Int) (v : α), m.get_linear_index i j = some lin
            ∧ mt.get_linear_index j i = some lin ∧ m.get i j = some v ∧ mt.get j i = some v)
      ∧ (∀ l : layout, transpose_layout (transpose_layout l) = l)
      ∧ ∃ mtt : matrix α, mt.t = some mtt
          ∧ mtt.get_layout = m.get_layout ∧ mtt.get_shape = m.get_shape
          ∧ mtt.get_stride = m.get_stride ∧ mtt.get_array = m.get_array
          ∧ (∀ i j : Int, mtt.get i j = m.get i j)
          ∧ mtt = m := by
  have hm := matrix.Reachable.inv m h
  have ht := matrix.t_of_inv m hm
  have hmt := matrix.t_inv m _ hm ht
  have htt := matrix.t_of_inv _ hmt
  have hlin : ∀ i j : Int,
      matrix_base.get_linear_index
        { lyt := transpose_layout m.lyt,
          shape_ := { shape_0 := m.shape_.shape_1, shape_1 := m.shape_.shape_0 },
          stride_ := m.stride_ } j i = m.get_linear_index i j :=
    fun i j => matrix.get_linear_index_transposed m i j
  have hget : ∀ i j : Int,
      matrix.get
        ({ lyt := transpose_layout m.lyt,
           shape_ := { shape_0 := m.shape_.shape_1, shape_1 := m.shape_.shape_0 },
           stride_ := m.stride_, x_ := m.x_ } : matrix α) j i = m.get i j := by
    intro i j
    unfold matrix.get
    rw [hlin i j]
  have hback :
      ({ lyt := transpose_layout (transpose_layout m.lyt),
         shape_ := { shape_0 := m.shape_.shape_0, shape_1 := m.shape_.shape_1 },
         stride_ := m.stride_, x_ := m.x_ } : matrix α) = m := by
    rw [transpose_layout_involutive]
  refine ⟨_, ht, shape.t_of_valid _ hm.1, rfl, transpose_layout_ne _, rfl, rfl, hlin, hget, ?_,
    transpose_layout_involutive, ⟨m, ?_, rfl, rfl, rfl, rfl, fun _ _ => rfl, rfl⟩⟩
  · intro i j hi0 hi hj0 hj
    obtain ⟨lin, v, h1, -, -, -, h5, -⟩ := matrix.get_of_inv m hm i j hi0 hi hj0 hj
    exact ⟨lin, v, h1, (hlin i j).trans h1, h5, (hget i j).trans h5⟩
  · rw [htt]
    exact congrArg some hback

/-- Witness for C11: the transposed view of a wrapped 2 x 3 matrix. -/
theorem matrix.t_is_transposed_view_witness :
    matrix.Reachable sampleMatrix
    ∧ ∃ mt : matrix Int, sampleMatrix.t = some mt
      ∧ mt.get_layout = layout.row_major
      ∧ mt.get_shape = { shape_0 := 2, shape_1 := 3 }
      ∧ mt.get 1 2 = sampleMatrix.get 2 1
      ∧ sampleMatrix.get 2 1 = some 6
      ∧ ∃ mtt : matrix Int, mt.t = some mtt ∧ mtt = sampleMatrix := by
  obtain ⟨mt, h1, h2, h3, -, -, -, -, h8, -, -, mtt, h11, -, -, -, -, -, h17⟩ :=
    matrix.t_is_transposed_view sampleMatrix sampleMatrix_reachable
  refine ⟨sampleMatrix_reachable, mt, h1, h3.trans (by decide), ?_, h8 2 1, by decide,
    mtt, h11, h17⟩
  have h2' : some mt.get_shape = some ({ shape_0 := 2, shape_1 := 3 } : shape) :=
    h2.symm.trans (by decide)
  exact Option.some.inj h2'

/-- Helper: a loop of in-range writes of `v` at the indices `f 0, ..., f (k - 1)` succeeds, keeps
the element count, leaves `v` at the written indices and the old element elsewhere. -/
theorem array.foldlM_write_values {α : Type} (f : Nat → Int) (v : α) (x : List α) :
    ∀ k : Nat, (∀ i : Nat, i < k → 0 ≤ f i ∧ f i < array.get_count x) →
      ∃ y : List α,
        (List.range k).foldlM (fun (ptr : List α) (i : Nat) => array.write ptr (f i) v) x
          = some y
        ∧ y.length = x.length
        ∧ (∀ p : Nat, (∃ i : Nat, i < k ∧ f i = (p : Int)) → y[p]? = some v)
        ∧ (∀ p : Nat, (¬ ∃ i : Nat, i < k ∧ f i = (p : Int)) → y[p]? = x[p]?) := by
  intro k
  induction k with
  | zero =>
    intro _
    refine ⟨x, rfl, rfl, ?_, fun _ _ => rfl⟩
    rintro p ⟨i, hi, -⟩
    omega
  | succ k ih =>
    intro hb
    obtain ⟨y, hy, hlen, hin, hout⟩ := ih (fun i hi => hb i (by omega))
    obtain ⟨hk0, hk1⟩ := hb k (by omega)
    unfold array.get_count at hk1
    have hw : array.write y (f k) v = some (y.set (f k).toNat v) := by
      unfold array.write array.get_count
      rw [if_pos ⟨hk0, by rw [hlen]; exact hk1⟩]
    refine ⟨y.set (f k).toNat v, ?_, by rw [List.length_set, hlen], ?_, ?_⟩
    · rw [List.range_succ, List.foldlM_append, hy]
      show (array.write y (f k) v >>= fun z => pure z) = _
      rw [hw]
      rfl
    · rintro p ⟨i, hi, hfi⟩
      rw [List.getElem?_set]
      by_cases hp : (f k).toNat = p
      · rw [if_pos hp, if_pos (by rw [hlen]; omega)]
      · rw [if_neg hp]
        have hik : i ≠ k := by
          intro e
          rw [e] at hfi
          omega
        exact hin p ⟨i, by omega, hfi⟩
    · intro p hp
      rw [List.getElem?_set]
      have hne : (f k).toNat ≠ p := by
        intro e
        exact hp ⟨k, by omega, by omega⟩
      rw [if_neg hne]
      exact hout p (fun ⟨i, hi, hfi⟩ => hp ⟨i, by omega, hfi⟩)

/-- Helper: a read at a non-negative index. -/
theorem array.read_nat {α : Type} (x : List α) (p : Nat) : array.read x (p : Int) = x[p]? := by
  unfold array.read
  simp

/-- Helper: `fill` succeeds on a matrix whose shape count is within its array and leaves the
filler at every index below `get_count()`. -/
theorem matrix.fill_values {α : Type} (m : matrix α) (filler : α)
    (hc : m.get_count ≤ array.get_count m.x_) :
    ∃ y : List α, m.fill filler = some { m with x_ := y }
      ∧ y.length = m.x_.length
      ∧ ∀ p : Nat, (p : Int) < m.get_count → y[p]? = some filler := by
  have hb : ∀ i : Nat, i < m.get_count.toNat →
      0 ≤ ((fun n : Nat => (n : Int)) i) ∧ ((fun n : Nat => (n : Int)) i) < array.get_count m.x_ := by
    intro i hi
    constructor
    · exact Int.natCast_nonneg i
    · show (i : Int) < array.get_count m.x_
      omega
  obtain ⟨y, hy, hlen, hin, -⟩ :=
    array.foldlM_write_values (fun n : Nat => (n : Int)) filler m.x_ m.get_count.toNat hb
  refine ⟨y, ?_, hlen, ?_⟩
  · unfold matrix.fill
    rw [hy]
    rfl
  · intro p hp
    exact hin p ⟨p, by omega, rfl⟩

/-- Helper: on a matrix with the invariant, `get(i, j)` of an in-range `(i, j)` is the array
element at the index given by the layout formula. -/
theorem matrix.get_eq_read {α : Type} (m : matrix α) (hm : m.Inv) (i j : Int)
    (hi0 : 0 ≤ i) (hi : i < m.get_row_count) (hj0 : 0 ≤ j) (hj : j < m.get_column_count) :
    ∃ p : Nat, (p : Int) < m.get_count
      ∧ (p : Int) = (match m.lyt with
                 | layout.row_major => i * m.get_column_count + j
                 | layout.column_major => j * m.get_row_count + i)
      ∧ m.get i j = m.x_[p]? := by
  obtain ⟨lin, v, -, h2, h3, h4, h5, h6⟩ := matrix.get_of_inv m hm i j hi0 hi hj0 hj
  obtain ⟨n, rfl⟩ := Int.eq_ofNat_of_zero_le h2
  refine ⟨n, h3, h4, ?_⟩
  rw [h5, ← h6]
  exact array.read_nat m.x_ n

/-- Helper: `full` on a valid shape returns the matrix of that shape whose array holds the
filler at every index below the element count. -/
theorem matrix.full_values {α : Type} (lyt : layout) (uninit : Nat → α) (s : shape) (v : α)
    (hs : shape.ctor s.shape_0 s.shape_1 = some s) :
    ∃ m : matrix α, matrix.full lyt uninit s v = some m ∧ m.Inv ∧ m.lyt = lyt ∧ m.shape_ = s
      ∧ m.stride_ = matrix_base.get_default_stride lyt s
      ∧ (m.x_.length : Int) = s.get_count
      ∧ ∀ p : Nat, (p : Int) < s.get_count → m.x_[p]? = some v := by
  obtain ⟨hcnt, h0, h1, -, -⟩ := shape.get_count_of_valid s hs
  have hnn : 0 ≤ s.get_count := by
    rw [hcnt]
    exact mul_nonneg h0 h1
  have hlen : ((array.empty uninit s.get_count).length : Int) = s.get_count := by
    unfold array.empty
    simp
    omega
  have he : matrix.empty lyt uninit s
      = some { lyt := lyt, shape_ := s, stride_ := matrix_base.get_default_stride lyt s,
               x_ := array.empty uninit s.get_count } := by
    show matrix.ctor _ _ _ _ = _
    rw [matrix.matrix_ctor_eq_some_iff]
    refine ⟨le_refl _, ?_, rfl⟩
    unfold array.get_count
    omega
  have hcount : matrix_base.get_count
      ({ lyt := lyt, shape_ := s, stride_ := matrix_base.get_default_stride lyt s,
         x_ := array.empty uninit s.get_count } : matrix α).tomatrix_base = s.get_count := rfl
  obtain ⟨y, hy, hylen, hyv⟩ := matrix.fill_values
    ({ lyt := lyt, shape_ := s, stride_ := matrix_base.get_default_stride lyt s,
       x_ := array.empty uninit s.get_count } : matrix α) v
    (by
      show s.get_count ≤ ((array.empty uninit s.get_count).length : Int)
      omega)
  have hf : matrix.full lyt uninit s v
      = some { lyt := lyt, shape_ := s, stride_ := matrix_base.get_default_stride lyt s,
               x_ := y } := by
    unfold matrix.full
    rw [he]
    exact hy
  have hyl : (y.length : Int) = s.get_count := by
    rw [hylen]
    exact hlen
  refine ⟨_, hf, ⟨hs, rfl, ?_⟩, rfl, rfl, rfl, hyl, ?_⟩
  · show s.get_count ≤ (y.length : Int)
    omega
  · intro p hp
    exact hyv p (by rw [hcount]; exact hp)

/-- Helper: inside a `d x d` matrix only the position `(k, k)` has the linear index
`k * d + k`. -/
theorem diag_index_unique (d a b k : Int) (ha : 0 ≤ a) (hb0 : 0 ≤ b) (hb : b < d)
    (hk0 : 0 ≤ k) (hk : k < d) (h : a * d + b = k * d + k) : a = k ∧ b = k := by
  have hd : 0 ≤ d := by omega
  have hak : a = k := by
    rcases lt_trichotomy a k with hlt | heq | hgt
    · have h1 : (a + 1) * d ≤ k * d := mul_le_mul_of_nonneg_right (by omega) hd
      have h2 : (a + 1) * d = a * d + d := by ring
      omega
    · exact heq
    · have h1 : (k + 1) * d ≤ a * d := mul_le_mul_of_nonneg_right (by omega) hd
      have h2 : (k + 1) * d = k * d + d := by ring
      omega
  subst hak
  exact ⟨rfl, by omega⟩

/-- Helper: `eye(dim)` for a representable `dim * dim` returns a `dim x dim` matrix whose array
holds one at the indices `k * dim + k` and zero at the others. -/
theorem matrix.eye_values {α : Type} [Zero α] [One α] (lyt : layout) (uninit : Nat → α)
    (dim : Int) (hd0 : 0 ≤ dim) (hd : dim * dim < 2 ^ 63) :
    ∃ m : matrix α, matrix.eye lyt uninit dim = some m ∧ m.Inv ∧ m.lyt = lyt
      ∧ m.shape_ = { shape_0 := dim, shape_1 := dim }
      ∧ (m.x_.length : Int) = dim * dim
      ∧ (∀ p : Nat, (∃ k : Nat, (k : Int) < dim ∧ (k : Int) * dim + (k : Int) = (p : Int)) →
          m.x_[p]? = some 1)
      ∧ (∀ p : Nat, (p : Int) < dim * dim →
          (¬ ∃ k : Nat, (k : Int) < dim ∧ (k : Int) * dim + (k : Int) = (p : Int)) →
          m.x_[p]? = some 0) := by
  have hs : shape.ctor dim dim = some { shape_0 := dim, shape_1 := dim } := by
    rw [shape.shape_ctor_eq_some_iff]
    exact ⟨hd0, hd0, Iff.rfl, hd, rfl⟩
  have hcnt : shape.get_count { shape_0 := dim, shape_1 := dim } = dim * dim :=
    (shape.get_count_of_valid { shape_0 := dim, shape_1 := dim } hs).1
  obtain ⟨z, hz, hzinv, hzl, hzs, hzst, hzlen, hzv⟩ :=
    matrix.full_values lyt uninit { shape_0 := dim, shape_1 := dim } (0 : α) hs
  rw [hcnt] at hzlen hzv
  have hf : ∀ k : Nat, k < dim.toNat →
      toInt64 (toInt64 ((k : Int) * dim) + (k : Int)) = (k : Int) * dim + (k : Int)
        ∧ 0 ≤ (k : Int) * dim + (k : Int) ∧ (k : Int) * dim + (k : Int) < dim * dim := by
    intro k hk
    obtain ⟨b1, b2, b3, b4⟩ := matrix_base.linear_index_bound dim dim (k : Int) (k : Int)
      (Int.natCast_nonneg k) (by omega) (Int.natCast_nonneg k) (by omega) hd
    have e1 : toInt64 ((k : Int) * dim) = (k : Int) * dim := toInt64_of_range _ (by omega) b2
    rw [e1, toInt64_of_range _ (by omega) (by omega)]
    exact ⟨rfl, b3, b4⟩
  have hb : ∀ i : Nat, i < dim.toNat →
      0 ≤ (fun k : Nat => toInt64 (toInt64 ((k : Int) * dim) + (k : Int))) i
        ∧ (fun k : Nat => toInt64 (toInt64 ((k : Int) * dim) + (k : Int))) i
          < array.get_count z.x_ := by
    intro i hi
    obtain ⟨e, b3, b4⟩ := hf i hi
    show 0 ≤ toInt64 (toInt64 ((i : Int) * dim) + (i : Int))
      ∧ toInt64 (toInt64 ((i : Int) * dim) + (i : Int)) < (z.x_.length : Int)
    rw [e, hzlen]
    exact ⟨b3, b4⟩
  obtain ⟨y, hy, hylen, hin, hout⟩ := array.foldlM_write_values
    (fun k : Nat => toInt64 (toInt64 ((k : Int) * dim) + (k : Int))) (1 : α) z.x_ dim.toNat hb
  have he : matrix.eye lyt uninit dim = some { z with x_ := y } := by
    unfold matrix.eye
    rw [hs]
    have hz' : matrix.zeros lyt uninit { shape_0 := dim, shape_1 := dim } = some z := hz
    simp only [Option.some_bind, Option.bind_eq_bind, hz', hy]
    rfl
  refine ⟨{ z with x_ := y }, he, ⟨hzinv.1, hzinv.2.1, ?_⟩, hzl, hzs, ?_, ?_, ?_⟩
  · have := hzinv.2.2
    unfold array.get_count at this ⊢
    show z.shape_.get_count ≤ (y.length : Int)
    rw [hylen]
    exact this
  · show (y.length : Int) = dim * dim
    rw [hylen]
    exact hzlen
  · rintro p ⟨k, hk, hkp⟩
    refine hin p ⟨k, by omega, ?_⟩
    show toInt64 (toInt64 ((k : Int) * dim) + (k : Int)) = (p : Int)
    rw [(hf k (by omega)).1]
    exact hkp
  · intro p hp hne
    show y[p]? = some 0
    rw [hout p ?_]
    · exact hzv p hp
    · rintro ⟨k, hk, hkp⟩
      apply hne
      refine ⟨k, by omega, ?_⟩
      rw [← (hf k hk).1]
      exact hkp

/-- C12, counterexample: `dim = 2^32` is non-negative, but `dim * dim = 2^64` is not
representable in `std::int64_t`: the shape constructor called by `eye` for `{ dim, dim }` fails
its overflow assertion, and `eye(dim)` returns no matrix, in either layout. -/
theorem matrix.eye_fails_for_large_dim :
    (0 : Int) ≤ 4294967296
    ∧ shape.ctor 4294967296 4294967296 = none
    ∧ matrix.eye layout.row_major (fun _ => (0 : Int)) 4294967296 = none
    ∧ matrix.eye layout.column_major (fun _ => (0 : Int)) 4294967296 = none := by
  have hs : shape.ctor 4294967296 4294967296 = none := by decide
  refine ⟨by decide, hs, ?_, ?_⟩ <;>
    (unfold matrix.eye
     rw [hs]
     rfl)

/-- C12, amended: for every `dim >= 0` whose square is representable in `std::int64_t` and
either layout, `eye(dim)` is returned and is a `dim x dim` matrix of that layout (with no
elements when `dim = 0`) with `get(i, j) = 1` when `i = j` and `get(i, j) = 0` when `i != j`,
for all `0 <= i, j < dim`; for every valid shape `s` and value `v`, `full(s, v)` is returned with
shape `s` and `get(i, j) = v` at every in-range `(i, j)`; `ones` and `zeros` are `full` with
`1` and `0`. -/
theorem matrix.eye_and_full_values {α : Type} [Zero α] [One α] (lyt : layout)
    (uninit : Nat → α) (dim : Int) (hd0 : 0 ≤ dim) (hd : dim * dim < 2 ^ 63) :
    (∃ m : matrix α, matrix.eye lyt uninit dim = some m
      ∧ m.get_layout = lyt ∧ m.get_row_count = dim ∧ m.get_column_count = dim
      ∧ (dim = 0 → m.get_count = 0 ∧ m.get_array = [])
      ∧ ∀ i j : Int, 0 ≤ i → i < dim → 0 ≤ j → j < dim →
          m.get i j = some (if i = j then 1 else 0))
    ∧ (∀ (s : shape) (v : α), shape.ctor s.shape_0 s.shape_1 = some s →
        ∃ m : matrix α, matrix.full lyt uninit s v = some m
          ∧ m.get_layout = lyt ∧ m.get_shape = s
          ∧ ∀ i j : Int, 0 ≤ i → i < s.get_row_count → 0 ≤ j → j < s.get_column_count →
              m.get i j = some v)
    ∧ (∀ s : shape, matrix.ones lyt uninit s = matrix.full lyt uninit s 1
        ∧ matrix.zeros lyt uninit s = matrix.full lyt uninit s 0) := by
  refine ⟨?_, ?_, fun s => ⟨rfl, rfl⟩⟩
  · obtain ⟨m, he, hinv, hl, hsh, hlen, hone, hzero⟩ :=
      matrix.eye_values lyt uninit dim hd0 hd
    have hr : m.get_row_count = dim := by
      show m.shape_.shape_0 = dim
      rw [hsh]
    have hc : m.get_column_count = dim := by
      show m.shape_.shape_1 = dim
      rw [hsh]
    have hcount : m.get_count = dim * dim := by
      have := (shape.get_count_of_valid _ hinv.1).1
      rw [hsh] at this
      show m.shape_.get_count = dim * dim
      rw [hsh]
      exact this
    refine ⟨m, he, hl, hr, hc, ?_, ?_⟩
    · intro h0
      refine ⟨by rw [hcount, h0]; rfl, ?_⟩
      have hz : m.x_.length = 0 := by
        rw [h0] at hlen
        omega
      exact List.eq_nil_of_length_eq_zero hz
    · intro i j hi0 hi hj0 hj
      obtain ⟨p, hp, hpv, hget⟩ := matrix.get_eq_read m hinv i j hi0 (by rw [hr]; exact hi)
        hj0 (by rw [hc]; exact hj)
      rw [hget]
      rw [hcount] at hp
      rw [hr, hc] at hpv
      by_cases hij : i = j
      · rw [if_pos hij]
        subst hij
        refine hone p ⟨i.toNat, by omega, ?_⟩
        have hi' : ((i.toNat : Nat) : Int) = i := by omega
        rw [hi', hpv]
        cases m.lyt <;> rfl
      · rw [if_neg hij]
        refine hzero p hp ?_
        rintro ⟨k, hk, hkp⟩
        rw [hpv] at hkp
        cases hlyt : m.lyt with
        | row_major =>
          rw [hlyt] at hkp
          have := diag_index_unique dim i j (k : Int) hi0 hj0 hj (Int.natCast_nonneg k) hk
            hkp.symm
          omega
        | column_major =>
          rw [hlyt] at hkp
          have := diag_index_unique dim j i (k : Int) hj0 hi0 hi (Int.natCast_nonneg k) hk
            hkp.symm
          omega
  · intro s v hs
    obtain ⟨m, hf, hinv, hl, hsh, -, hlen, hval⟩ := matrix.full_values lyt uninit s v hs
    refine ⟨m, hf, hl, hsh, ?_⟩
    intro i j hi0 hi hj0 hj
    have hcount : m.get_count = s.get_count := by
      show m.shape_.get_count = s.get_count
      rw [hsh]
    obtain ⟨p, hp, -, hget⟩ := matrix.get_eq_read m hinv i j hi0
      (by show i < m.shape_.get_row_count; rw [hsh]; exact hi) hj0
      (by show j < m.shape_.get_column_count; rw [hsh]; exact hj)
    rw [hget]
    exact hval p (by rw [← hcount]; exact hp)

/-- Witness for C12: `eye(2)` in column-major layout over a junk-filled allocation. -/
theorem matrix.eye_and_full_values_witness :
    (0 : Int) ≤ 2 ∧ (2 : Int) * 2 < 2 ^ 63
    ∧ matrix.eye layout.column_major (fun _ => (7 : Int)) 2
        = some { lyt := layout.column_major, shape_ := { shape_0 := 2, shape_1 := 2 },
                 stride_ := 2, x_ := [1, 0, 0, 1] }
    ∧ (∃ m : matrix Int, matrix.eye layout.column_major (fun _ => (7 : Int)) 2 = some m
      ∧ m.get_layout = layout.column_major ∧ m.get_row_count = 2 ∧ m.get_column_count = 2
      ∧ ((2 : Int) = 0 → m.get_count = 0 ∧ m.get_array = [])
      ∧ ∀ i j : Int, 0 ≤ i → i < 2 → 0 ≤ j → j < 2 →
          m.get i j = some (if i = j then 1 else 0)) :=
  ⟨by decide, by decide, by decide,
    (matrix.eye_and_full_values layout.column_major (fun _ => (7 : Int)) 2
      (by decide) (by decide)).1⟩

/-- Helper: one more iteration of the loop of `all`. -/
theorem matrix.all_loop_succ (m : matrix Bool) (n : Nat) :
    (List.range (n + 1)).foldlM
        (fun (result : Bool) (i : Nat) =>
          if result then m.get_linear (i : Int) else some false) true
      = ((List.range n).foldlM
          (fun (result : Bool) (i : Nat) =>
            if result then m.get_linear (i : Int) else some false) true).bind
        (fun r => if r then m.x_[n]? else some false) := by
  rw [List.range_succ, List.foldlM_append]
  simp only [List.foldlM_cons, List.foldlM_nil, bind_pure, Option.bind_eq_bind]
  congr 1
  funext r
  cases r
  · rfl
  · exact array.read_nat m.x_ n

/-- Helper: one more iteration of the loop of `any`. -/
theorem matrix.any_loop_succ (m : matrix Bool) (n : Nat) :
    (List.range (n + 1)).foldlM
        (fun (result : Bool) (i : Nat) =>
          if result then some true else m.get_linear (i : Int)) false
      = ((List.range n).foldlM
          (fun (result : Bool) (i : Nat) =>
            if result then some true else m.get_linear (i : Int)) false).bind
        (fun r => if r then some true else m.x_[n]?) := by
  rw [List.range_succ, List.foldlM_append]
  simp only [List.foldlM_cons, List.foldlM_nil, bind_pure, Option.bind_eq_bind]
  congr 1
  funext r
  cases r
  · exact array.read_nat m.x_ n
  · rfl

/-- Helper: the loop of `all` returns a value as long as it stays inside the array. -/
theorem matrix.all_loop_total (m : matrix Bool) :
    ∀ n : Nat, n ≤ m.x_.length →
      ∃ b : Bool, (List.range n).foldlM
        (fun (result : Bool) (i : Nat) =>
          if result then m.get_linear (i : Int) else some false) true = some b := by
  intro n
  induction n with
  | zero => intro _; exact ⟨true, rfl⟩
  | succ n ih =>
    intro hn
    obtain ⟨b, hb⟩ := ih (by omega)
    rw [matrix.all_loop_succ, hb]
    cases b
    · exact ⟨false, rfl⟩
    · have hlt : n < m.x_.length := by omega
      exact ⟨m.x_[n], by simp [List.getElem?_eq_getElem hlt]⟩

/-- Helper: the loop of `any` returns a value as long as it stays inside the array. -/
theorem matrix.any_loop_total (m : matrix Bool) :
    ∀ n : Nat, n ≤ m.x_.length →
      ∃ b : Bool, (List.range n).foldlM
        (fun (result : Bool) (i : Nat) =>
          if result then some true else m.get_linear (i : Int)) false = some b := by
  intro n
  induction n with
  | zero => intro _; exact ⟨false, rfl⟩
  | succ n ih =>
    intro hn
    obtain ⟨b, hb⟩ := ih (by omega)
    rw [matrix.any_loop_succ, hb]
    cases b
    · have hlt : n < m.x_.length := by omega
      exact ⟨m.x_[n], by simp [List.getElem?_eq_getElem hlt]⟩
    · exact ⟨true, rfl⟩

/-- Helper: the loop of `all` over `n` indices returns true exactly when they all hold true. -/
theorem matrix.all_loop_true_iff (m : matrix Bool) :
    ∀ n : Nat, (List.range n).foldlM
        (fun (result : Bool) (i : Nat) =>
          if result then m.get_linear (i : Int) else some false) true = some true
      ↔ ∀ i : Nat, i < n → m.x_[i]? = some true := by
  intro n
  induction n with
  | zero =>
    constructor
    · intro _ i hi
      omega
    · intro _
      rfl
  | succ n ih =>
    rw [matrix.all_loop_succ]
    cases hA : (List.range n).foldlM
        (fun (result : Bool) (i : Nat) =>
          if result then m.get_linear (i : Int) else some false) true with
    | none =>
      constructor
      · intro h; cases h
      · intro h
        rw [hA] at ih
        have := ih.2 (fun i hi => h i (by omega))
        cases this
    | some b =>
      cases b with
      | false =>
        constructor
        · intro h; cases h
        · intro h
          rw [hA] at ih
          have := ih.2 (fun i hi => h i (by omega))
          cases this
      | true =>
        rw [hA] at ih
        have hall := ih.1 rfl
        constructor
        · intro h i hi
          by_cases hin : i < n
          · exact hall i hin
          · have : i = n := by omega
            subst this
            exact h
        · intro h
          exact h n (by omega)

/-- Helper: the loop of `any` over `n` indices returns true exactly when one of them holds
true. -/
theorem matrix.any_loop_true_iff (m : matrix Bool) :
    ∀ n : Nat, (List.range n).foldlM
        (fun (result : Bool) (i : Nat) =>
          if result then some true else m.get_linear (i : Int)) false = some true
      ↔ ∃ i : Nat, i < n ∧ m.x_[i]? = some true := by
  intro n
  induction n with
  | zero =>
    constructor
    · intro h; cases h
    · rintro ⟨i, hi, -⟩
      omega
  | succ n ih =>
    rw [matrix.any_loop_succ]
    cases hB : (List.range n).foldlM
        (fun (result : Bool) (i : Nat) =>
          if result then some true else m.get_linear (i : Int)) false with
    | none =>
      rw [hB] at ih
      constructor
      · intro h; cases h
      · rintro ⟨i, hi, hx⟩
        by_cases hin : i < n
        · have := ih.2 ⟨i, hin, hx⟩
          cases this
        · have hi' : i = n := by omega
          subst hi'
          have hlt : i < m.x_.length := by
            by_contra hge
            rw [List.getElem?_eq_none (by omega)] at hx
            cases hx
          obtain ⟨b, hb⟩ := matrix.any_loop_total m i (by omega)
          rw [hB] at hb
          cases hb
    | some b =>
      rw [hB] at ih
      cases b with
      | true =>
        obtain ⟨i, hi, hx⟩ := ih.1 rfl
        constructor
        · intro _
          exact ⟨i, by omega, hx⟩
        · intro _
          rfl
      | false =>
        constructor
        · intro h
          exact ⟨n, by omega, h⟩
        · rintro ⟨i, hi, hx⟩
          by_cases hin : i < n
          · have := ih.2 ⟨i, hin, hx⟩
            cases this
          · have hi' : i = n := by omega
            subst hi'
            exact hx

/-- Helper: the loop of `all` on the negated matrix mirrors the loop of `any` on the matrix. -/
theorem matrix.negation_loop (m : matrix Bool) :
    ∀ (l : List Nat) (b : Bool),
      l.foldlM (fun (result : Bool) (i : Nat) =>
          if result then m.negation.get_linear (i : Int) else some false) b
        = (l.foldlM (fun (result : Bool) (i : Nat) =>
            if result then some true else m.get_linear (i : Int)) (!b)).map (fun r => !r) := by
  intro l
  induction l with
  | nil =>
    intro b
    simp
  | cons a l ih =>
    intro b
    rw [List.foldlM_cons, List.foldlM_cons]
    cases b with
    | false =>
      have := ih false
      simp only [Bool.not_false] at this ⊢
      exact this
    | true =>
      have hread : m.negation.get_linear (a : Int) = (m.get_linear (a : Int)).map (fun r => !r) := by
        show array.read (m.x_.map (fun b => !b)) (a : Int) = (array.read m.x_ (a : Int)).map _
        rw [array.read_nat, array.read_nat, List.getElem?_map]
      simp only [Bool.not_true, if_true, hread]
      cases hg : m.get_linear (a : Int) with
      | none => rfl
      | some g =>
        have := ih (!g)
        simp only [Bool.not_not] at this
        simpa using this

/-- C13: for every boolean matrix `m`, `all()` returns true exactly when the element at every
linear index `0 <= i < get_count()` is true, and `any()` returns true exactly when the element
at some such index is true; both return a value when the element count of the shape is within
the array (the assertion of the matrix constructor); on the empty matrix `all()` is true and
`any()` is false; on a non-empty matrix `all()` implies `any()`; and `any()` on `m` is the
negation of `all()` on the element-wise negation of `m`. -/
theorem matrix.all_any_characterisation (m : matrix Bool) :
    (m.all = some true ↔
      ∀ i : Int, 0 ≤ i → i < m.get_count → m.get_linear i = some true)
    ∧ (m.any = some true ↔
      ∃ i : Int, 0 ≤ i ∧ i < m.get_count ∧ m.get_linear i = some true)
    ∧ (m.get_count ≤ array.get_count m.get_array →
        (∃ b : Bool, m.all = some b) ∧ (∃ b : Bool, m.any = some b))
    ∧ (m.get_count = 0 → m.all = some true ∧ m.any = some false)
    ∧ (0 < m.get_count → m.all = some true → m.any = some true)
    ∧ m.any = m.negation.all.map (fun b => !b)
    ∧ m.negation.all = m.any.map (fun b => !b) := by
  have hall : m.all = some true ↔
      ∀ i : Int, 0 ≤ i → i < m.get_count → m.get_linear i = some true := by
    unfold matrix.all
    rw [matrix.all_loop_true_iff]
    constructor
    · intro h i hi0 hi
      obtain ⟨n, rfl⟩ := Int.eq_ofNat_of_zero_le hi0
      show array.read m.x_ (n : Int) = some true
      rw [array.read_nat]
      exact h n (by omega)
    · intro h i hi
      rw [← array.read_nat]
      exact h (i : Int) (Int.natCast_nonneg i) (by omega)
  have hany : m.any = some true ↔
      ∃ i : Int, 0 ≤ i ∧ i < m.get_count ∧ m.get_linear i = some true := by
    unfold matrix.any
    rw [matrix.any_loop_true_iff]
    constructor
    · rintro ⟨i, hi, hx⟩
      refine ⟨(i : Int), Int.natCast_nonneg i, by omega, ?_⟩
      show array.read m.x_ (i : Int) = some true
      rw [array.read_nat]
      exact hx
    · rintro ⟨i, hi0, hi, hx⟩
      obtain ⟨n, rfl⟩ := Int.eq_ofNat_of_zero_le hi0
      refine ⟨n, by omega, ?_⟩
      rw [← array.read_nat]
      exact hx
  have hneg : m.negation.all = m.any.map (fun b => !b) := by
    unfold matrix.all matrix.any
    exact matrix.negation_loop m _ true
  refine ⟨hall, hany, ?_, ?_, ?_, ?_, hneg⟩
  · intro hc
    have hle : m.get_count.toNat ≤ m.x_.length := by
      have : m.get_count ≤ (m.x_.length : Int) := hc
      omega
    exact ⟨matrix.all_loop_total m _ hle, matrix.any_loop_total m _ hle⟩
  · intro h0
    unfold matrix.all matrix.any
    rw [h0]
    exact ⟨rfl, rfl⟩
  · intro hpos ht
    rw [hany]
    exact ⟨0, le_refl _, hpos, hall.1 ht 0 (le_refl _) hpos⟩
  · rw [hneg, Option.map_map]
    cases m.any with
    | none => rfl
    | some b => simp

/-- Witness for C13: a 2 x 2 boolean matrix with one true element. -/
theorem matrix.all_any_characterisation_witness :
    sampleBoolMatrix.get_count ≤ array.get_count sampleBoolMatrix.get_array
    ∧ sampleBoolMatrix.all = some false
    ∧ sampleBoolMatrix.any = some true
    ∧ sampleBoolMatrix.negation.all = some false
    ∧ ((∃ b : Bool, sampleBoolMatrix.all = some b) ∧ (∃ b : Bool, sampleBoolMatrix.any = some b))
    ∧ sampleBoolMatrix.any = sampleBoolMatrix.negation.all.map (fun b => !b) :=
  ⟨by decide, by decide, by decide, by decide,
    (matrix.all_any_characterisation sampleBoolMatrix).2.2.1 (by decide),
    (matrix.all_any_characterisation sampleBoolMatrix).2.2.2.2.2.1⟩

end oneapi.dal.test.engine.linalg
